import Mathlib

/-!
# Connected-component labeling engine of `ndarray-ndimage` (`src/measurements.rs`)

A shallow embedding of the 3D connected-component labeling engine:
the kernel preprocessor, the union-find equivalence table, the scanline
labeler, the output compaction/remap, and the derived statistics
(`label_histogram`, `most_frequent_label`).

Volumes are nested lists indexed `[x][y][z]` (axis 2 = innermost axis, the
lane axis).  Label values are natural numbers; the generic label integer type
`O` of the Rust code is modelled by a `maxVal` parameter (`O::max_value()`).
Background is `0`, the foreground sentinel is `1`, allocated regions are `≥ 2`.
Panics (`assert!` failures and the label-overflow `assert!`) are modelled by
an error-returning result monad `LRes`.
-/

/-- The three panics that `label` can raise: the two kernel-validation
`assert!`s at the top of `label` and the overflow `assert!` in
`label_line_with_neighbor`. -/
inductive LabelErr where
  | shapeErr
  | symmetryErr
  | overflowErr
deriving DecidableEq, Repr

/-- Result monad for the labeling run: either a value or an aborting panic. -/
inductive LRes (α : Type) where
  | ok : α → LRes α
  | err : LabelErr → LRes α
deriving DecidableEq, Repr

instance : Monad LRes where
  pure := LRes.ok
  bind x f := match x with
    | .ok a => f a
    | .err e => .err e

/-- A 3D array as nested lists, indexed `[x][y][z]`. -/
abbrev Vol3 (α : Type) := List (List (List α))

/-- Read a voxel (out-of-range reads give the default, which never happens on
well-formed input). -/
def vget {α : Type} (d : α) (V : Vol3 α) (x y z : Nat) : α :=
  ((V.getD x []).getD y []).getD z d

/-- The lane (1D run along axis 2) of `V` at outer position `(x, y)`. -/
def vlane {α : Type} (V : Vol3 α) (x y : Nat) : List α :=
  (V.getD x []).getD y []

/-- Write a whole lane at outer position `(x, y)`. -/
def setLane {α : Type} (V : Vol3 α) (x y : Nat) (lane : List α) : Vol3 α :=
  V.set x ((V.getD x []).set y lane)

/-- `V` is a well-formed `w × h × d` volume: all rows and lanes have uniform
lengths. -/
def wf3 {α : Type} (V : Vol3 α) (w h d : Nat) : Prop :=
  V.length = w ∧ ∀ p ∈ V, p.length = h ∧ ∀ l ∈ p, l.length = d

instance {α : Type} (V : Vol3 α) (w h d : Nat) : Decidable (wf3 V w h d) := by
  unfold wf3; infer_instance

/-- `structure.shape() == &[3, 3, 3]` (first `assert!` of `label`). -/
def shape3 (K : Vol3 Bool) : Bool :=
  K.length = 3 && K.all fun p => p.length = 3 && p.all fun l => l.length = 3

/-- `structure == structure.slice(s![..;-1, ..;-1, ..;-1])` (second `assert!`
of `label`): the kernel equals its own point reflection. -/
def pointSymmetric (K : Vol3 Bool) : Bool :=
  (List.range 3).all fun i => (List.range 3).all fun j => (List.range 3).all fun k =>
    vget false K i j k = vget false K (2 - i) (2 - j) (2 - k)

/-- `is_valid`: bounds check for a neighbor line.  `coords` is the kernel lane
coordinate `[y, x]` (each in `0..3`); the neighbor position is
`idx + (coords - 1)`, valid only when inside `[0, dims)` on both axes. -/
def is_valid (idx : Nat × Nat) (coords : Int × Int) (dims : Int × Int) :
    Option (Nat × Nat) :=
  let valid : Nat → Int → Int → Option Nat := fun i c d =>
    let a : Int := (i : Int) + (c - 1)
    if 0 ≤ a ∧ a < d then some a.toNat else none
  (valid idx.1 coords.1 dims.1).bind fun x =>
    (valid idx.2 coords.2 dims.2).bind fun y => some (x, y)

/-- The root-chasing loop `while a != equivalences[a] { a = equivalences[a] }`
of `mark_for_merge`, with explicit fuel.  Under the table invariant
(`equivalences[i] ≤ i`) every step strictly decreases `a`, so fuel `a`
suffices. -/
def findRootFuel (eq : List Nat) : Nat → Nat → Nat
  | 0, a => a
  | fuel + 1, a => if eq.getD a 0 = a then a else findRootFuel eq fuel (eq.getD a 0)

/-- `find_root`: follow the table from `a` until a fixed point. -/
def find_root (eq : List Nat) (a : Nat) : Nat := findRootFuel eq a a

/-- The path-flattening loop of `mark_for_merge`
(`while a != lowest_label { a_copy = a; a = equivalences[a]; equivalences[a_copy] = lowest_label }`),
with explicit fuel; fuel `a` suffices under the table invariant. -/
def flattenFuel (lowest : Nat) : Nat → Nat → List Nat → List Nat
  | 0, _, eq => eq
  | fuel + 1, a, eq =>
    if a = lowest then eq
    else flattenFuel lowest fuel (eq.getD a 0) (eq.set a lowest)

/-- `mark_for_merge`: find the roots of `a` and `b`, point both roots at the
smaller root, then rewrite both original walk paths to point directly at it.
Returns the surviving label and the updated table. -/
def mark_for_merge (a b : Nat) (eq : List Nat) : Nat × List Nat :=
  let ra := find_root eq a
  let rb := find_root eq b
  let lowest := min ra rb
  let eq1 := (eq.set ra lowest).set rb lowest
  let eq2 := flattenFuel lowest a a eq1
  let eq3 := flattenFuel lowest b b eq2
  (lowest, eq3)

/-- `take_label_or_merge`: take the label of a neighbor, or mark the two
labels for merging. -/
def take_label_or_merge (current neighbor : Nat) (eq : List Nat) : Nat × List Nat :=
  if neighbor = 0 then (current, eq)
  else if current = 1 then (neighbor, eq)
  else if current ≠ neighbor then mark_for_merge neighbor current eq
  else (current, eq)

/-- The provisional-region allocation step of `label_line_with_neighbor`
(`*l = next_region; equivalences.push(next_region); assert!(next_region < O::max_value()); next_region += 1`).
Returns the assigned label, the grown table and the incremented counter, or
aborts with `overflowErr` when the counter has reached `maxVal`
(`O::max_value()`). -/
def allocate (maxVal : Nat) (eq : List Nat) (next_region : Nat) :
    LRes (Nat × List Nat × Nat) :=
  let assigned := next_region
  let eq' := eq ++ [next_region]
  if next_region < maxVal then .ok (assigned, eq', next_region + 1)
  else .err .overflowErr

/-- The kernel-window merges of one cell
(`for (&n, &k) in n.iter().zip(&kernel) { if k { *l = take_label_or_merge(*l, n, equivalences) } }`). -/
def cellMerges (l : Nat) (window : List Nat) (kernel : List Bool) (eq : List Nat) :
    Nat × List Nat :=
  (window.zip kernel).foldl
    (fun acc p => if p.2 then take_label_or_merge acc.1 p.1 acc.2 else acc) (l, eq)

/-- One iteration of the cell loop of `label_line_with_neighbor`: cell `j`
(stored at buffer slot `j + 1`), with window `neighbors[j..j+3]`.  The state is
`(line, equivalences, next_region, previous)`. -/
def lineStep (maxVal : Nat) (kernel : List Bool) (use_previous label_unlabeled : Bool)
    (neighbors : List Nat) (j : Nat) (st : List Nat × List Nat × Nat × Nat) :
    LRes (List Nat × List Nat × Nat × Nat) :=
  let (line, eq, nr, prev) := st
  let l := line.getD (j + 1) 0
  if l ≠ 0 then
    let window := [neighbors.getD j 0, neighbors.getD (j + 1) 0, neighbors.getD (j + 2) 0]
    let (l1, eq1) := cellMerges l window kernel eq
    if label_unlabeled then
      let (l2, eq2) := if use_previous then take_label_or_merge l1 prev eq1 else (l1, eq1)
      if l2 = 1 then
        match allocate maxVal eq2 nr with
        | .ok (lab, eq3, nr') => .ok (line.set (j + 1) lab, eq3, nr', lab)
        | .err e => .err e
      else .ok (line.set (j + 1) l2, eq2, nr, l2)
    else .ok (line.set (j + 1) l1, eq1, nr, l1)
  else .ok (line, eq, nr, l)

/-- The cell loop of `label_line_with_neighbor` over the listed cells. -/
def lineLoop (maxVal : Nat) (kernel : List Bool) (use_previous label_unlabeled : Bool)
    (neighbors : List Nat) :
    List Nat → List Nat × List Nat × Nat × Nat → LRes (List Nat × List Nat × Nat × Nat)
  | [], st => .ok st
  | j :: js, st =>
    match lineStep maxVal kernel use_previous label_unlabeled neighbors j st with
    | .ok st' => lineLoop maxVal kernel use_previous label_unlabeled neighbors js st'
    | .err e => .err e

/-- `label_line_with_neighbor`: merge one line with one (already labeled)
neighbor line, optionally fusing same-line backward connectivity and fresh
label allocation.  `len` is the lane length (the buffers have length
`len + 2`); `previous` starts at `line[0]`. -/
def label_line_with_neighbor (maxVal : Nat) (line neighbors eq : List Nat)
    (kernel : List Bool) (use_previous label_unlabeled : Bool) (next_region len : Nat) :
    LRes (List Nat × List Nat × Nat) := do
  let (line', eq', nr', _) ← lineLoop maxVal kernel use_previous label_unlabeled neighbors
    (List.range len) (line, eq, next_region, line.getD 0 0)
  pure (line', eq', nr')

/-- The kernel preprocessor of `label`: lanes of the kernel along axis 2 in
logical order, keeping only the `structure.len() / (3 * 2)` lanes preceding
the center lane, dropping all-`false` lanes, each kept lane becoming its
3-boolean pattern plus its `[y, x]` lane coordinate. -/
def kernel_data (K : Vol3 Bool) : List (List Bool × Int × Int) :=
  let lanes := K.flatMap id
  let nb_neighbors := (lanes.length * 3) / (3 * 2)
  ((lanes.zip (List.range lanes.length)).take nb_neighbors
    |>.filter fun li => li.1.any id)
    |>.map fun li =>
      let y : Nat := li.2 / 3
      let x : Nat := li.2 - y * 3
      ([li.1.getD 0 false, li.1.getD 1 false, li.1.getD 2 false], ((y : Int), (x : Int)))

/-- `use_previous = structure[(1, 1, 0)]`. -/
def use_previous_of (K : Vol3 Bool) : Bool := vget false K 1 1 0

/-- Scan state threaded through the per-lane loop of `label`: the raw label
volume, the equivalence table, the next free region id, and the (reused)
neighbor buffer. -/
structure ScanState where
  labels : Vol3 Nat
  eq : List Nat
  nr : Nat
  neighbors : List Nat
deriving DecidableEq, Repr

/-- The inner loop of `label` over the (enumerated) kernel entries for one
lane: for each in-bounds neighbor line, copy its labels into the neighbor
buffer and run `label_line_with_neighbor`; the last kernel entry also
self-labels.  The state is `(line, eq, nr, neighbors, needs_self_labeling)`. -/
def isLastEntry (kdLen i : Nat) : Bool := i = kdLen - 1

def neighborPass (maxVal kdLen : Nat) (use_previous : Bool) (idx : Nat × Nat)
    (dims : Int × Int) (len : Nat) (labels : Vol3 Nat) :
    List (Nat × (List Bool × Int × Int)) →
    List Nat × List Nat × Nat × List Nat × Bool →
    LRes (List Nat × List Nat × Nat × List Nat × Bool)
  | [], st => .ok st
  | (i, entry) :: rest, (line, eq, nr, neighbors, needs) =>
    match is_valid idx entry.2 dims with
    | some xy =>
      let neighbors' := 0 :: vlane labels xy.1 xy.2 ++ [0]
      let lu := isLastEntry kdLen i
      match label_line_with_neighbor maxVal line neighbors' eq entry.1 use_previous lu nr len with
      | .ok st' =>
        neighborPass maxVal kdLen use_previous idx dims len labels rest
          (st'.1, st'.2.1, st'.2.2, neighbors', if lu then false else needs)
      | .err e => .err e
    | none => neighborPass maxVal kdLen use_previous idx dims len labels rest
        (line, eq, nr, neighbors, needs)

/-- The body of the `Zip::indexed(...).for_each` of `label`: process the lane
of the input mask at outer position `idx`. -/
def processLane (maxVal len : Nat) (kd : List (List Bool × Int × Int))
    (use_previous : Bool) (dims : Int × Int) (st : ScanState) (idx : Nat × Nat)
    (lane : List Bool) : LRes ScanState := do
  let line := 0 :: lane.map (fun v => if v then 1 else 0) ++ [0]
  let (line1, eq1, nr1, nb1, needs) ←
    neighborPass maxVal kd.length use_previous idx dims len st.labels
      ((List.range kd.length).zip kd) (line, st.eq, st.nr, st.neighbors, true)
  let (line2, eq2, nr2) ←
    if needs then
      label_line_with_neighbor maxVal line1 nb1 eq1 [false, false, false] use_previous true nr1 len
    else pure (line1, eq1, nr1)
  pure ⟨setLane st.labels idx.1 idx.2 ((line2.drop 1).take len), eq2, nr2, nb1⟩

/-- `compact_equivalences`: walk labels `2..next_region` in increasing order,
assigning dense ids (from 1) to roots in place and rewriting non-roots through
two steps of indirection; returns the rewritten table and the feature count
(`max` of the table, or 0 when no region was ever allocated). -/
def compact_equivalences (eq : List Nat) (next_region : Nat) : List Nat × Nat :=
  let no_labelling := next_region = 2
  let dest0 := if no_labelling then 0 else 1
  let p := (List.range' 2 (next_region - 2)).foldl
    (fun (p : List Nat × Nat) i =>
      if p.1.getD i 0 = i then (p.1.set i p.2, p.2 + 1)
      else (p.1.set i (p.1.getD (p.1.getD i 0) 0), p.2))
    (eq, dest0)
  if no_labelling then (p.1, 0) else (p.1, p.1.foldl max 0)

/-- `label`: validate the structuring element, sweep every lane of the volume
in logical order, then compact the equivalence table and remap the raw label
volume through it.  Returns the final label volume and the feature count, or
the panic that aborted the run. -/
def label (V K : Vol3 Bool) (maxVal : Nat) : LRes (Vol3 Nat × Nat) :=
  if ¬ shape3 K then .err .shapeErr
  else if ¬ pointSymmetric K then .err .symmetryErr
  else
    let len := (vlane V 0 0).length
    let width : Int := V.length
    let height : Int := (V.getD 0 []).length
    let kd := kernel_data K
    let use_previous := use_previous_of K
    let labels0 : Vol3 Nat :=
      List.replicate V.length (List.replicate (V.getD 0 []).length (List.replicate len 0))
    let init : ScanState := ⟨labels0, [0, 1], 2, List.replicate (len + 2) 0⟩
    let pairs := (List.range V.length).flatMap
      fun x => (List.range (V.getD 0 []).length).map fun y => (x, y)
    match pairs.foldlM
      (fun st p => processLane maxVal len kd use_previous (width, height) st p (vlane V p.1 p.2))
      init with
    | .ok final =>
      let c := compact_equivalences final.eq final.nr
      .ok (final.labels.map (fun p => p.map fun l => l.map fun v => c.1.getD v 0), c.2)
    | .err e => .err e

/-- `label_histogram`: bincount of a label volume into `nb_features + 1`
buckets. -/
def label_histogram (labels : Vol3 Nat) (nb_features : Nat) : List Nat :=
  labels.foldl
    (fun c p => p.foldl (fun c l => l.foldl (fun c v => c.set v (c.getD v 0 + 1)) c) c)
    (List.replicate (nb_features + 1) 0)

/-- Rust tuple `Ord::max` on `(usize, usize)`: lexicographic, returning the
second argument when the two are equal. -/
def tupleMax (a b : Nat × Nat) : Nat × Nat :=
  if a.1 < b.1 ∨ (a.1 = b.1 ∧ a.2 ≤ b.2) then b else a

/-- `most_frequent_label`: lexicographic-max fold over the histogram without
its background bucket, returning the winning label and its count, or `None`
when every non-background bucket is 0. -/
def most_frequent_label (labels : Vol3 Nat) (nb_features : Nat) : Option (Nat × Nat) :=
  let hist := label_histogram labels nb_features
  let m := ((hist.drop 1).enum).foldl (fun acc ia => tupleMax acc (ia.2, ia.1)) (0, 0)
  if m.1 > 0 then some (m.2 + 1, m.1) else none

/-!
## List access helpers
-/

theorem getD_set_self (l : List Nat) (i v : Nat) (h : i < l.length) :
    (l.set i v).getD i 0 = v := by
  simp [List.getD, List.getElem?_set_self, h]

theorem getD_set_ne (l : List Nat) {i j : Nat} (v : Nat) (h : i ≠ j) :
    (l.set i v).getD j 0 = l.getD j 0 := by
  simp [List.getD, List.getElem?_set_ne h]

theorem getD_append_lt (l : List Nat) (v : Nat) {i : Nat} (h : i < l.length) :
    (l ++ [v]).getD i 0 = l.getD i 0 := by
  simp [List.getD, List.getElem?_append, h]

theorem getD_append_len (l : List Nat) (v : Nat) : (l ++ [v]).getD l.length 0 = v := by
  simp [List.getD]

theorem getD_of_len_le (l : List Nat) {i : Nat} (h : l.length ≤ i) : l.getD i 0 = 0 := by
  simp [List.getD, List.getElem?_eq_none h]

/-!
## The equivalence-table invariant

Entries point downward (`equivalences[i] ≤ i`), the two fixed entries `0`
(background) and `1` (foreground sentinel) map to themselves and are never
rewritten, and every entry of an allocated region (`i ≥ 2`) stays `≥ 2`.
-/

/-- Invariant of the equivalence table throughout a `label` run. -/
def EqInv (eq : List Nat) : Prop :=
  2 ≤ eq.length ∧ eq.getD 1 0 = 1 ∧
  (∀ i, i < eq.length → eq.getD i 0 ≤ i) ∧
  (∀ i, 2 ≤ i → i < eq.length → 2 ≤ eq.getD i 0)

instance (eq : List Nat) : Decidable (EqInv eq) := by
  unfold EqInv; infer_instance

theorem eqInv_zero {eq : List Nat} (h : EqInv eq) : eq.getD 0 0 = 0 :=
  Nat.le_zero.mp (h.2.2.1 0 (lt_of_lt_of_le (by norm_num) h.1))

/-!
## Root chasing
-/

theorem findRootFuel_spec (eq : List Nat) (hdown : ∀ i, i < eq.length → eq.getD i 0 ≤ i) :
    ∀ fuel a, a < eq.length → a ≤ fuel →
      eq.getD (findRootFuel eq fuel a) 0 = findRootFuel eq fuel a ∧
      findRootFuel eq fuel a ≤ a ∧ findRootFuel eq fuel a < eq.length := by
  intro fuel
  induction fuel with
  | zero =>
    intro a ha hle
    have h0 : a = 0 := Nat.le_zero.mp hle
    subst h0
    have h00 : eq.getD 0 0 = 0 := Nat.le_zero.mp (hdown 0 ha)
    exact ⟨h00, le_refl _, ha⟩
  | succ fuel ih =>
    intro a ha hle
    by_cases hfix : eq.getD a 0 = a
    · simp only [findRootFuel, hfix, if_pos rfl]
      exact ⟨hfix, le_refl a, ha⟩
    · have hlt : eq.getD a 0 < a := lt_of_le_of_ne (hdown a ha) hfix
      have ha' : eq.getD a 0 < eq.length := lt_trans hlt ha
      have hle' : eq.getD a 0 ≤ fuel := by omega
      obtain ⟨h1, h2, h3⟩ := ih (eq.getD a 0) ha' hle'
      refine ⟨?_, ?_, ?_⟩ <;> simp only [findRootFuel, if_neg hfix]
      · exact h1
      · omega
      · exact h3

theorem find_root_spec (eq : List Nat) (h : EqInv eq) (a : Nat) (ha : a < eq.length) :
    eq.getD (find_root eq a) 0 = find_root eq a ∧ find_root eq a ≤ a ∧
    find_root eq a < eq.length :=
  findRootFuel_spec eq h.2.2.1 a a ha (le_refl a)

theorem findRootFuel_stable (eq : List Nat) (a : Nat) (hfix : eq.getD a 0 = a) :
    ∀ fuel, findRootFuel eq fuel a = a := by
  intro fuel
  cases fuel with
  | zero => rfl
  | succ fuel => unfold findRootFuel; rw [if_pos hfix]

/-!
## Original walk paths

`PathTo eq a P` says that `P` is the node list of the walk from `a` to its
root in the table `eq`: `P` starts at `a`, each element's successor follows
the table, and the last element is a fixed point.
-/

inductive PathTo (eq : List Nat) : Nat → List Nat → Prop where
  | root {r : Nat} : eq.getD r 0 = r → PathTo eq r [r]
  | step {x : Nat} {P : List Nat} : eq.getD x 0 ≠ x → PathTo eq (eq.getD x 0) P →
      PathTo eq x (x :: P)

theorem pathTo_head {eq : List Nat} {b : Nat} {P : List Nat} (h : PathTo eq b P) :
    ∃ t, P = b :: t := by
  cases h with
  | root h => exact ⟨[], rfl⟩
  | step h1 h2 => exact ⟨_, rfl⟩

theorem pathTo_unique {eq : List Nat} {b : Nat} {P Q : List Nat}
    (hP : PathTo eq b P) (hQ : PathTo eq b Q) : P = Q := by
  induction hP generalizing Q with
  | root h =>
    cases hQ with
    | root _ => rfl
    | step h1 _ => exact absurd h h1
  | step h1 h2 ih =>
    cases hQ with
    | root h => exact absurd h h1
    | step h1' h2' => rw [ih h2']

theorem pathTo_mem_le {eq : List Nat} (hdown : ∀ i, i < eq.length → eq.getD i 0 ≤ i)
    {b : Nat} {P : List Nat} (h : PathTo eq b P) :
    b < eq.length → ∀ x ∈ P, x ≤ b ∧ x < eq.length := by
  induction h with
  | root h => intro hb x hx; rw [List.mem_singleton.mp hx]; exact ⟨le_refl _, hb⟩
  | @step c P' h1 h2 ih =>
    intro hb x hx
    have hcle : eq.getD c 0 ≤ c := hdown c hb
    have hclt : eq.getD c 0 < eq.length := lt_of_le_of_lt hcle hb
    rcases List.mem_cons.mp hx with h | h
    · rw [h]; exact ⟨le_refl _, hb⟩
    · obtain ⟨hx1, hx2⟩ := ih hclt x h
      exact ⟨le_trans hx1 hcle, hx2⟩

theorem pathTo_mem_two_le {eq : List Nat}
    (hdown : ∀ i, i < eq.length → eq.getD i 0 ≤ i)
    (hlow : ∀ i, 2 ≤ i → i < eq.length → 2 ≤ eq.getD i 0)
    {b : Nat} {P : List Nat} (h : PathTo eq b P) :
    b < eq.length → 2 ≤ b → ∀ x ∈ P, 2 ≤ x := by
  induction h with
  | root h => intro hb hb2 x hx; rw [List.mem_singleton.mp hx]; exact hb2
  | @step c P' h1 h2 ih =>
    intro hb hb2 x hx
    rcases List.mem_cons.mp hx with h | h
    · rw [h]; exact hb2
    · exact ih (lt_of_le_of_lt (hdown c hb) hb) (hlow c hb2 hb) x h

theorem exists_pathTo (eq : List Nat) (hdown : ∀ i, i < eq.length → eq.getD i 0 ≤ i) :
    ∀ b, b < eq.length → ∃ P, PathTo eq b P := by
  intro b
  induction b using Nat.strong_induction_on with
  | _ b ih =>
    intro hb
    by_cases hfix : eq.getD b 0 = b
    · exact ⟨[b], PathTo.root hfix⟩
    · have hlt : eq.getD b 0 < b := lt_of_le_of_ne (hdown b hb) hfix
      obtain ⟨P, hP⟩ := ih (eq.getD b 0) hlt (lt_trans hlt hb)
      exact ⟨b :: P, PathTo.step hfix hP⟩

theorem pathTo_split {eq : List Nat} {b : Nat} {P : List Nat} (h : PathTo eq b P)
    (hdown : ∀ i, i < eq.length → eq.getD i 0 ≤ i) (hb : b < eq.length) :
    ∀ y ∈ P, ∃ P1 Q, P = P1 ++ Q ∧ PathTo eq y Q ∧ ∀ x ∈ P1, y < x := by
  induction h with
  | root h =>
    intro y hy
    rw [List.mem_singleton.mp hy]
    exact ⟨[], _, rfl, PathTo.root h, by simp⟩
  | @step c P' h1 h2 ih =>
    intro y hy
    rcases List.mem_cons.mp hy with h | h
    · subst h
      exact ⟨[], y :: P', rfl, PathTo.step h1 h2, by simp⟩
    · have hclt : eq.getD c 0 < eq.length :=
        lt_of_le_of_lt (hdown c hb) hb
      obtain ⟨P1, Q, hPQ, hQ, hP1⟩ := ih hclt y h
      refine ⟨c :: P1, Q, by rw [hPQ, List.cons_append], hQ, ?_⟩
      intro x hx
      rcases List.mem_cons.mp hx with h' | h'
      · subst h'
        have hyle := (pathTo_mem_le hdown h2 hclt y h).1
        have : eq.getD x 0 < x := lt_of_le_of_ne (hdown x hb) h1
        omega
      · exact hP1 x h'

theorem pathTo_findRootFuel {eq : List Nat} (hdown : ∀ i, i < eq.length → eq.getD i 0 ≤ i)
    {b : Nat} {P : List Nat} (h : PathTo eq b P) :
    b < eq.length → ∀ fuel, b ≤ fuel →
      findRootFuel eq fuel b ∈ P ∧
      eq.getD (findRootFuel eq fuel b) 0 = findRootFuel eq fuel b ∧
      ∀ x ∈ P, findRootFuel eq fuel b ≤ x := by
  induction h with
  | root h =>
    intro hb fuel hle
    rw [findRootFuel_stable eq _ h fuel]
    exact ⟨List.mem_singleton_self _, h, fun x hx => le_of_eq (List.mem_singleton.mp hx).symm⟩
  | @step c P' h1 h2 ih =>
    intro hb fuel hle
    have hlt : eq.getD c 0 < c := lt_of_le_of_ne (hdown c hb) h1
    have hclt : eq.getD c 0 < eq.length := lt_trans hlt hb
    have hc1 : 1 ≤ c := by omega
    obtain ⟨fuel', hfuel⟩ : ∃ f, fuel = f + 1 := ⟨fuel - 1, by omega⟩
    subst hfuel
    have hle' : eq.getD c 0 ≤ fuel' := by omega
    obtain ⟨hm, hfix, hmin⟩ := ih hclt fuel' hle'
    have hunf : findRootFuel eq (fuel' + 1) c = findRootFuel eq fuel' (eq.getD c 0) := by
      conv_lhs => rw [findRootFuel]
      rw [if_neg h1]
    rw [hunf]
    refine ⟨List.mem_cons_of_mem c hm, hfix, ?_⟩
    intro x hx
    rcases List.mem_cons.mp hx with h' | h'
    · subst h'
      exact le_trans (hmin (eq.getD x 0) (by
        obtain ⟨t, ht⟩ := pathTo_head h2
        rw [ht]; simp)) (le_of_lt hlt)
    · exact hmin x h'

theorem pathTo_find_root {eq : List Nat} (hdown : ∀ i, i < eq.length → eq.getD i 0 ≤ i)
    {b : Nat} {P : List Nat} (h : PathTo eq b P) (hb : b < eq.length) :
    find_root eq b ∈ P ∧ eq.getD (find_root eq b) 0 = find_root eq b ∧
    ∀ x ∈ P, find_root eq b ≤ x :=
  pathTo_findRootFuel hdown h hb b (le_refl b)

theorem pathTo_length {eq : List Nat} {b : Nat} {P : List Nat} (h : PathTo eq b P)
    (hdown : ∀ i, i < eq.length → eq.getD i 0 ≤ i) :
    b < eq.length → ∃ r ∈ P, eq.getD r 0 = r ∧ P.length + r ≤ b + 1 := by
  induction h with
  | root h => intro hb; exact ⟨_, List.mem_singleton_self _, h, by simp; omega⟩
  | @step c P' h1 h2 ih =>
    intro hb
    have hlt : eq.getD c 0 < c := lt_of_le_of_ne (hdown c hb) h1
    obtain ⟨r, hr, hfix, hlen⟩ := ih (lt_trans hlt hb)
    exact ⟨r, List.mem_cons_of_mem c hr, hfix, by simp only [List.length_cons]; omega⟩

/-- A fixed point of the table that lies on a walk path is the path's root,
hence its minimum. -/
theorem pathTo_fix_min {eq : List Nat} (hdown : ∀ i, i < eq.length → eq.getD i 0 ≤ i)
    {b : Nat} {P : List Nat} (h : PathTo eq b P) (hb : b < eq.length)
    {y : Nat} (hy : y ∈ P) (hfix : eq.getD y 0 = y) : ∀ x ∈ P, x < y → False := by
  intro x hx hxy
  obtain ⟨P1, Q, hPQ, hQ, hP1⟩ := pathTo_split h hdown hb y hy
  have hQy : Q = [y] := pathTo_unique hQ (PathTo.root hfix)
  subst hPQ
  rcases List.mem_append.mp hx with h' | h'
  · exact absurd (hP1 x h') (by omega)
  · rw [hQy] at h'
    exact absurd (List.mem_singleton.mp h') (by omega)

/-!
## The path-flattening loop
-/

theorem flattenFuel_self (lo : Nat) (fuel : Nat) (e : List Nat) :
    flattenFuel lo fuel lo e = e := by
  cases fuel <;> simp [flattenFuel]

/-- Running the flattening loop from `b` in a table `e` that differs from the
reference table `eq` only by entries already rewritten to `lo`: every node of
the original walk path of `b` ends up pointing at `lo`, and nothing else
changes.  Hypotheses: the already-`lo` entries are downward closed along the
path, every root on the path is already rewritten, and all path nodes are
`≥ lo`. -/
theorem flatten_along_path {eq : List Nat} {lo : Nat}
    (hdown : ∀ i, i < eq.length → eq.getD i 0 ≤ i) {b : Nat} {P : List Nat}
    (hP : PathTo eq b P) :
    ∀ (e : List Nat) (fuel : Nat),
      e.length = eq.length →
      (∀ y ∈ P, e.getD y 0 = lo ∨ e.getD y 0 = eq.getD y 0) →
      (∀ y ∈ P, ∀ x ∈ P, e.getD y 0 = lo → x < y → e.getD x 0 = lo) →
      (∀ r ∈ P, eq.getD r 0 = r → e.getD r 0 = lo) →
      (∀ x ∈ P, lo ≤ x) →
      e.getD lo 0 = lo →
      b < eq.length →
      P.length ≤ fuel →
      (flattenFuel lo fuel b e).length = e.length ∧
      (∀ x ∈ P, (flattenFuel lo fuel b e).getD x 0 = lo) ∧
      ∀ j, j ∉ P → (flattenFuel lo fuel b e).getD j 0 = e.getD j 0 := by
  induction hP with
  | @root r hfix =>
    intro e fuel hlen hagree hclosed hroot hge hlofix hb hfuel
    have her : e.getD r 0 = lo := hroot r (List.mem_singleton_self r) hfix
    obtain ⟨f, rfl⟩ : ∃ f, fuel = f + 1 := ⟨fuel - 1, by simp at hfuel; omega⟩
    by_cases hrlo : r = lo
    · subst hrlo
      rw [flattenFuel_self]
      exact ⟨rfl, fun x hx => by rw [List.mem_singleton.mp hx]; exact her,
        fun j hj => rfl⟩
    · have hres : flattenFuel lo (f + 1) r e = e.set r lo := by
        unfold flattenFuel
        rw [if_neg hrlo, her, flattenFuel_self]
      rw [hres]
      refine ⟨by simp, fun x hx => ?_, fun j hj => ?_⟩
      · rw [List.mem_singleton.mp hx]
        exact getD_set_self e r lo (by omega)
      · exact getD_set_ne e lo fun h => hj (by rw [← h]; exact List.mem_singleton_self r)
  | @step c P' hne h2 ih =>
    intro e fuel hlen hagree hclosed hroot hge hlofix hb hfuel
    have hclt : eq.getD c 0 < c := lt_of_le_of_ne (hdown c hb) hne
    have hclen : eq.getD c 0 < eq.length := lt_trans hclt hb
    have hmemP' : ∀ x ∈ P', x < c := fun x hx =>
      lt_of_le_of_lt (pathTo_mem_le hdown h2 hclen x hx).1 hclt
    have hcne : ∀ x ∈ P', x ≠ c := fun x hx => Nat.ne_of_lt (hmemP' x hx)
    have hclo : c ≠ lo := by
      intro h
      obtain ⟨t, ht⟩ := pathTo_head h2
      have : eq.getD c 0 ∈ P' := by rw [ht]; simp
      have := hge (eq.getD c 0) (List.mem_cons_of_mem c this)
      omega
    obtain ⟨f, rfl⟩ : ∃ f, fuel = f + 1 := ⟨fuel - 1, by simp at hfuel; omega⟩
    have hstep : flattenFuel lo (f + 1) c e = flattenFuel lo f (e.getD c 0) (e.set c lo) := by
      conv_lhs => rw [flattenFuel]
      rw [if_neg hclo]
    by_cases hcase : e.getD c 0 = lo
    · have hres : flattenFuel lo (f + 1) c e = e.set c lo := by
        rw [hstep, hcase, flattenFuel_self]
      rw [hres]
      refine ⟨by simp, fun x hx => ?_, fun j hj => ?_⟩
      · rcases List.mem_cons.mp hx with h | h
        · subst h
          exact getD_set_self e x lo (by omega)
        · rw [getD_set_ne e lo (fun hh => (hcne x h) hh.symm)]
          exact hclosed c (List.mem_cons_self c P') x (List.mem_cons_of_mem c h)
            hcase (hmemP' x h)
      · rw [getD_set_ne e lo (fun hh => hj (by rw [← hh]; exact List.mem_cons_self c P'))]
    · have hagreec : e.getD c 0 = eq.getD c 0 :=
        (hagree c (List.mem_cons_self c P')).resolve_left hcase
      rw [hstep, hagreec]
      have hlen2 : (e.set c lo).length = eq.length := by simp [hlen]
      obtain ⟨hL, hIn, hOut⟩ := ih (e.set c lo) f hlen2
        (fun y hy => by
          rw [getD_set_ne e lo (fun hh => (hcne y hy) hh.symm)]
          exact hagree y (List.mem_cons_of_mem c hy))
        (fun y hy x hx hylo hxy => by
          rw [getD_set_ne e lo (fun hh => (hcne x hx) hh.symm)]
          rw [getD_set_ne e lo (fun hh => (hcne y hy) hh.symm)] at hylo
          exact hclosed y (List.mem_cons_of_mem c hy) x (List.mem_cons_of_mem c hx) hylo hxy)
        (fun r hr hfix => by
          rw [getD_set_ne e lo (fun hh => (hcne r hr) hh.symm)]
          exact hroot r (List.mem_cons_of_mem c hr) hfix)
        (fun x hx => hge x (List.mem_cons_of_mem c hx))
        (by rw [getD_set_ne e lo hclo]; exact hlofix)
        hclen
        (by simp at hfuel; omega)
      have hcP' : c ∉ P' := fun h => absurd (hmemP' c h) (by omega)
      refine ⟨by rw [hL]; simp, fun x hx => ?_, fun j hj => ?_⟩
      · rcases List.mem_cons.mp hx with h | h
        · subst h
          rw [hOut x hcP']
          exact getD_set_self e x lo (by omega)
        · exact hIn x h
      · have hjc : j ≠ c := fun hh => hj (hh ▸ List.mem_cons_self c P')
        have hjP' : j ∉ P' := fun hh => hj (List.mem_cons_of_mem c hh)
        rw [hOut j hjP']
        exact getD_set_ne e lo fun hh => hjc hh.symm

/-!
## `mark_for_merge` correctness
-/

theorem mark_for_merge_spec (eq : List Nat) (hinv : EqInv eq) (a b : Nat)
    (ha2 : 2 ≤ a) (ha : a < eq.length) (hb2 : 2 ≤ b) (hb : b < eq.length) :
    (mark_for_merge a b eq).1 = min (find_root eq a) (find_root eq b) ∧
    (mark_for_merge a b eq).2.length = eq.length ∧
    EqInv (mark_for_merge a b eq).2 ∧
    2 ≤ (mark_for_merge a b eq).1 ∧ (mark_for_merge a b eq).1 ≤ a ∧
    (mark_for_merge a b eq).1 ≤ b ∧
    (∀ P, PathTo eq a P → ∀ x ∈ P,
      (mark_for_merge a b eq).2.getD x 0 = (mark_for_merge a b eq).1) ∧
    (∀ P, PathTo eq b P → ∀ x ∈ P,
      (mark_for_merge a b eq).2.getD x 0 = (mark_for_merge a b eq).1) := by
  obtain ⟨hlen2, h1fix, hdown, hlow⟩ := hinv
  obtain ⟨Pa, hPa⟩ := exists_pathTo eq hdown a ha
  obtain ⟨Pb, hPb⟩ := exists_pathTo eq hdown b hb
  obtain ⟨hraPa, hrafix, hramin⟩ := pathTo_find_root hdown hPa ha
  obtain ⟨hrbPb, hrbfix, hrbmin⟩ := pathTo_find_root hdown hPb hb
  have hPa2 : ∀ x ∈ Pa, 2 ≤ x := pathTo_mem_two_le hdown hlow hPa ha ha2
  have hPb2 : ∀ x ∈ Pb, 2 ≤ x := pathTo_mem_two_le hdown hlow hPb hb hb2
  have hPalt : ∀ x ∈ Pa, x ≤ a ∧ x < eq.length := pathTo_mem_le hdown hPa ha
  have hPblt : ∀ x ∈ Pb, x ≤ b ∧ x < eq.length := pathTo_mem_le hdown hPb hb
  set ra := find_root eq a with hra_def
  set rb := find_root eq b with hrb_def
  set lo := min ra rb with hlo_def
  have hra2 : 2 ≤ ra := hPa2 ra hraPa
  have hrb2 : 2 ≤ rb := hPb2 rb hrbPb
  have hralt : ra < eq.length := (hPalt ra hraPa).2
  have hrblt : rb < eq.length := (hPblt rb hrbPb).2
  have hlo2 : 2 ≤ lo := le_min hra2 hrb2
  have hloa : lo ≤ a := le_trans (min_le_left _ _) (hPalt ra hraPa).1
  have hlob : lo ≤ b := le_trans (min_le_right _ _) (hPblt rb hrbPb).1
  have hlofix : eq.getD lo 0 = lo := by
    rcases min_cases ra rb with ⟨h, _⟩ | ⟨h, _⟩ <;> rw [← hlo_def] at h <;> rw [h]
    · exact hrafix
    · exact hrbfix
  set eq1 := (eq.set ra lo).set rb lo with heq1_def
  have heq1len : eq1.length = eq.length := by simp [heq1_def]
  have heq1rb : eq1.getD rb 0 = lo := getD_set_self _ rb lo (by simp; exact hrblt)
  have heq1ra : eq1.getD ra 0 = lo := by
    by_cases h : rb = ra
    · rw [← h]; exact heq1rb
    · rw [getD_set_ne _ lo h]
      exact getD_set_self _ ra lo hralt
  have heq1other : ∀ j, j ≠ ra → j ≠ rb → eq1.getD j 0 = eq.getD j 0 := by
    intro j hja hjb
    rw [getD_set_ne _ lo fun h => hjb h.symm, getD_set_ne _ lo fun h => hja h.symm]
  have heq1lo : eq1.getD lo 0 = lo := by
    rcases min_cases ra rb with ⟨h, _⟩ | ⟨h, _⟩ <;> rw [← hlo_def] at h <;> conv_lhs => rw [h]
    · exact heq1ra
    · exact heq1rb
  have heq1agree : ∀ j, eq1.getD j 0 = lo ∨ eq1.getD j 0 = eq.getD j 0 := by
    intro j
    by_cases hja : j = ra
    · subst hja; exact Or.inl heq1ra
    · by_cases hjb : j = rb
      · subst hjb; exact Or.inl heq1rb
      · exact Or.inr (heq1other j hja hjb)
  -- the first flattening pass, along the path of `a`
  have hPalen : Pa.length ≤ a := by
    obtain ⟨r, hr, hrfx, hl⟩ := pathTo_length hPa hdown ha
    have := hPa2 r hr
    omega
  obtain ⟨hfl1len, hfl1in, hfl1out⟩ :=
    flatten_along_path hdown hPa eq1 a heq1len
      (fun y _ => heq1agree y)
      (by
        intro y hy x hx hylo hxy
        by_cases hyra : y = ra
        · subst hyra
          exact absurd hxy (not_lt.mpr (hramin x hx))
        · by_cases hyrb : y = rb
          · subst hyrb
            exact absurd (pathTo_fix_min hdown hPa ha hy hrbfix x hx hxy) (fun h => h)
          · have heqy : eq.getD y 0 = lo := by
              rw [← heq1other y hyra hyrb]; exact hylo
            have hylo' : y ≠ lo := by
              rcases min_cases ra rb with ⟨h, _⟩ | ⟨h, _⟩ <;> rw [← hlo_def] at h <;>
                intro hc <;> rw [hc] at hyra hyrb
              · exact hyra h
              · exact hyrb h
            obtain ⟨P1, Q, hsplit, hQ, hP1⟩ := pathTo_split hPa hdown ha y hy
            have hQshape : Q = [y, lo] := by
              have hstep : PathTo eq y (y :: [lo]) := by
                refine PathTo.step (fun hc => hylo' ((heqy.symm.trans hc).symm)) ?_
                rw [heqy]
                exact PathTo.root hlofix
              exact pathTo_unique hQ hstep
            have hxQ : x ∈ Q := by
              rcases List.mem_append.mp (hsplit ▸ hx) with h' | h'
              · exact absurd hxy (not_lt.mpr (le_of_lt (hP1 x h')))
              · exact h'
            rw [hQshape] at hxQ
            rcases List.mem_cons.mp hxQ with h' | h'
            · omega
            · rw [List.mem_singleton.mp h']
              exact heq1lo)
      (by
        intro r hr hrfx
        have hrra : r = ra := by
          have h1 := hramin r hr
          by_contra hne
          exact pathTo_fix_min hdown hPa ha hr hrfx ra hraPa (by omega)
        rw [hrra]; exact heq1ra)
      (fun x hx => le_trans (min_le_left _ _) (hramin x hx))
      heq1lo ha hPalen
  set eq2 := flattenFuel lo a a eq1 with heq2_def
  have heq2len : eq2.length = eq.length := by rw [hfl1len, heq1len]
  have heq2agree : ∀ j, eq2.getD j 0 = lo ∨ eq2.getD j 0 = eq.getD j 0 := by
    intro j
    by_cases hj : j ∈ Pa
    · exact Or.inl (hfl1in j hj)
    · rw [hfl1out j hj]; exact heq1agree j
  have heq2lo : eq2.getD lo 0 = lo := by
    by_cases hj : lo ∈ Pa
    · exact hfl1in lo hj
    · rw [hfl1out lo hj]; exact heq1lo
  have heq2rb : eq2.getD rb 0 = lo := by
    by_cases hj : rb ∈ Pa
    · exact hfl1in rb hj
    · rw [hfl1out rb hj]; exact heq1rb
  -- the second flattening pass, along the path of `b`
  have hPblen : Pb.length ≤ b := by
    obtain ⟨r, hr, hrfx, hl⟩ := pathTo_length hPb hdown hb
    have := hPb2 r hr
    omega
  obtain ⟨hfl2len, hfl2in, hfl2out⟩ :=
    flatten_along_path hdown hPb eq2 b heq2len
      (fun y _ => heq2agree y)
      (by
        intro y hy x hx hylo hxy
        obtain ⟨P1, Q, hsplit, hQ, hP1⟩ := pathTo_split hPb hdown hb y hy
        have hxQ : x ∈ Q := by
          rcases List.mem_append.mp (hsplit ▸ hx) with h' | h'
          · exact absurd hxy (not_lt.mpr (le_of_lt (hP1 x h')))
          · exact h'
        by_cases hyPa : y ∈ Pa
        · obtain ⟨P1', Q', hsplit', hQ', hP1'⟩ := pathTo_split hPa hdown ha y hyPa
          have : Q = Q' := pathTo_unique hQ hQ'
          have hxPa : x ∈ Pa := by
            rw [hsplit']
            exact List.mem_append.mpr (Or.inr (this ▸ hxQ))
          exact hfl1in x hxPa
        · by_cases hyrb : y = rb
          · subst hyrb
            exact absurd (pathTo_fix_min hdown hPb hb hy hrbfix x hx hxy) (fun h => h)
          · have hyra : y ≠ ra := fun h => hyPa (h ▸ hraPa)
            have heqy : eq.getD y 0 = lo := by
              have h2 := hfl1out y hyPa
              rw [h2] at hylo
              rw [← heq1other y hyra hyrb]
              exact hylo
            have hylo' : y ≠ lo := by
              rcases min_cases ra rb with ⟨h, _⟩ | ⟨h, _⟩ <;> rw [← hlo_def] at h <;>
                intro hc <;> rw [hc] at hyra hyrb
              · exact hyra h
              · exact hyrb h
            have hQshape : Q = [y, lo] := by
              have hstep : PathTo eq y (y :: [lo]) := by
                refine PathTo.step (fun hc => hylo' ((heqy.symm.trans hc).symm)) ?_
                rw [heqy]
                exact PathTo.root hlofix
              exact pathTo_unique hQ hstep
            rw [hQshape] at hxQ
            rcases List.mem_cons.mp hxQ with h' | h'
            · omega
            · rw [List.mem_singleton.mp h']
              exact heq2lo)
      (by
        intro r hr hrfx
        have hrrb : r = rb := by
          have h1 := hrbmin r hr
          by_contra hne
          exact pathTo_fix_min hdown hPb hb hr hrfx rb hrbPb (by omega)
        rw [hrrb]; exact heq2rb)
      (fun x hx => le_trans (min_le_right _ _) (hrbmin x hx))
      heq2lo hb hPblen
  set eq3 := flattenFuel lo b b eq2 with heq3_def
  have heq3len : eq3.length = eq.length := by rw [hfl2len, heq2len]
  have hmark : mark_for_merge a b eq = (lo, eq3) := rfl
  have heq3agree : ∀ j, (eq3.getD j 0 = lo ∧ lo ≤ j ∧ j < eq.length) ∨
      eq3.getD j 0 = eq.getD j 0 := by
    intro j
    by_cases hj : j ∈ Pb
    · exact Or.inl ⟨hfl2in j hj, le_trans (min_le_right _ _) (hrbmin j hj),
        (hPblt j hj).2⟩
    · rw [hfl2out j hj]
      by_cases hj' : j ∈ Pa
      · exact Or.inl ⟨hfl1in j hj', le_trans (min_le_left _ _) (hramin j hj'),
          (hPalt j hj').2⟩
      · rw [hfl1out j hj']
        by_cases hja : j = ra
        · subst hja; exact Or.inl ⟨heq1ra, min_le_left _ _, hralt⟩
        · by_cases hjb : j = rb
          · subst hjb; exact Or.inl ⟨heq1rb, min_le_right _ _, hrblt⟩
          · exact Or.inr (heq1other j hja hjb)
  have heq3in_a : ∀ x ∈ Pa, eq3.getD x 0 = lo := by
    intro x hx
    by_cases hj : x ∈ Pb
    · exact hfl2in x hj
    · rw [hfl2out x hj]; exact hfl1in x hx
  rw [hmark]
  refine ⟨rfl, heq3len, ?_, hlo2, hloa, hlob, ?_, ?_⟩
  · show EqInv eq3
    refine ⟨by omega, ?_, ?_, ?_⟩
    · rcases heq3agree 1 with ⟨_, h, _⟩ | h
      · omega
      · simp only [h]; exact h1fix
    · intro i hi
      rcases heq3agree i with ⟨h, h2, _⟩ | h
      · omega
      · rw [heq3len] at hi
        simp only [h]; exact hdown i hi
    · intro i hi2 hi
      rcases heq3agree i with ⟨h, _, _⟩ | h
      · omega
      · rw [heq3len] at hi
        simp only [h]; exact hlow i hi2 hi
  · intro P hP
    rw [pathTo_unique hP hPa]
    exact heq3in_a
  · intro P hP
    rw [pathTo_unique hP hPb]
    exact hfl2in

theorem eqInv_append {eq : List Nat} (hinv : EqInv eq) (h : 2 ≤ eq.length) :
    EqInv (eq ++ [eq.length]) := by
  obtain ⟨hlen2, h1fix, hdown, hlow⟩ := hinv
  refine ⟨by simp; omega, ?_, ?_, ?_⟩
  · rw [getD_append_lt eq _ (by omega)]; exact h1fix
  · intro i hi
    simp at hi
    by_cases hieq : i = eq.length
    · subst hieq
      rw [getD_append_len]
    · rw [getD_append_lt eq _ (by omega)]
      exact hdown i (by omega)
  · intro i hi2 hi
    simp at hi
    by_cases hieq : i = eq.length
    · subst hieq
      rw [getD_append_len]; omega
    · rw [getD_append_lt eq _ (by omega)]
      exact hlow i hi2 (by omega)

/-- C5: if the structuring element is not exactly 3×3×3, or is not equal to
its own point reflection, `label` fails validation up front: it returns the
corresponding panic, and the result is the same for every input volume (no
volume data is consulted, no partial state is produced). -/
theorem C5_kernel_validation (V V' K : Vol3 Bool) (maxVal : Nat)
    (h : ¬ (shape3 K = true ∧ pointSymmetric K = true)) :
    (label V K maxVal = .err .shapeErr ∨ label V K maxVal = .err .symmetryErr) ∧
    label V K maxVal = label V' K maxVal := by
  by_cases hs : shape3 K = true
  · have hp : ¬ pointSymmetric K = true := fun hp => h ⟨hs, hp⟩
    constructor
    · right
      simp [label, hs, hp]
    · simp [label, hs, hp]
  · constructor
    · left
      simp [label, hs]
    · simp [label, hs]

/-- C5 witness: a non-symmetric 3×3×3 kernel is rejected identically on two
different volumes. -/
theorem C5_kernel_validation_witness :
    ¬ ((shape3 [[[true, false, false], [false, true, false], [false, false, false]],
        [[false, true, false], [true, true, true], [false, true, false]],
        [[false, false, false], [false, true, false], [false, false, false]]] = true) ∧
       (pointSymmetric [[[true, false, false], [false, true, false], [false, false, false]],
        [[false, true, false], [true, true, true], [false, true, false]],
        [[false, false, false], [false, true, false], [false, false, false]]] = true)) ∧
    (label [[[true]]] [[[true, false, false], [false, true, false], [false, false, false]],
        [[false, true, false], [true, true, true], [false, true, false]],
        [[false, false, false], [false, true, false], [false, false, false]]] 65535 =
      .err .symmetryErr) := by
  constructor
  · decide
  · exact ((C5_kernel_validation [[[true]]] [[[true]]] _ 65535 (by decide)).1).resolve_left
      (by decide)

/-- C4: allocating a provisional label appends the self-mapping entry
`next_region → next_region` to the equivalence table and increments the
counter; it fails with the overflow panic exactly when completing the
allocation would push the counter past the label type's maximum value
(`next_region + 1 > maxVal`); a failed run never yields a label volume. -/
theorem C4_allocate_overflow (maxVal : Nat) (eq : List Nat) (nr : Nat)
    (hlen : eq.length = nr) :
    ((∃ e, allocate maxVal eq nr = .err e) ↔ maxVal < nr + 1) ∧
    (maxVal < nr + 1 → allocate maxVal eq nr = .err .overflowErr) ∧
    (∀ lab eq' nr', allocate maxVal eq nr = .ok (lab, eq', nr') →
      lab = nr ∧ eq' = eq ++ [nr] ∧ eq'.getD nr 0 = nr ∧ eq'.length = nr + 1 ∧
      nr' = nr + 1) ∧
    (∀ (V K : Vol3 Bool) (e : LabelErr) (r : Vol3 Nat × Nat),
      label V K maxVal = .err e → label V K maxVal ≠ .ok r) := by
  refine ⟨?_, ?_, ?_, ?_⟩
  · constructor
    · rintro ⟨e, he⟩
      by_cases h : nr < maxVal
      · simp [allocate, h] at he
      · omega
    · intro h
      refine ⟨.overflowErr, ?_⟩
      simp [allocate]
      omega
  · intro h
    simp [allocate]
    omega
  · intro lab eq' nr' hok
    by_cases h : nr < maxVal
    · simp [allocate, h] at hok
      obtain ⟨h1, h2, h3⟩ := hok
      subst h1; subst h2; subst h3
      exact ⟨rfl, rfl, hlen ▸ getD_append_len eq nr, by simp [hlen], rfl⟩
    · simp [allocate, h] at hok
  · intro V K e r herr hok
    rw [herr] at hok
    exact LRes.noConfusion hok

/-- C4 witness: with table `[0, 1]` and counter 2, allocation under
`maxVal = 65535` succeeds and appends `2 → 2`; under `maxVal = 2` it
overflows, and the corresponding whole-volume run aborts with the overflow
panic. -/
theorem C4_allocate_overflow_witness :
    (([0, 1] : List Nat).length = 2) ∧
    (¬ ((∃ e, allocate 65535 [0, 1] 2 = .err e))) ∧
    allocate 2 [0, 1] 2 = .err .overflowErr ∧
    label [[[true, false, true]]]
      [[[false, false, false], [false, true, false], [false, false, false]],
       [[false, true, false], [true, true, true], [false, true, false]],
       [[false, false, false], [false, true, false], [false, false, false]]] 2 =
      .err .overflowErr := by
  refine ⟨rfl, ?_, ?_, by decide⟩
  · intro h
    have := (C4_allocate_overflow 65535 [0, 1] 2 rfl).1.mp h
    omega
  · exact (C4_allocate_overflow 2 [0, 1] 2 rfl).2.1 (by omega)

/-- C6: for labels `a`, `b` at least 2 and present in the table (under the
run invariant), `mark_for_merge` returns `lowest = min(find_root a,
find_root b)`, and afterwards every node on the original walk path from `a`
to its root, every node on the original walk path from `b` to its root, and
both original roots point directly at `lowest`. -/
theorem C6_union_flattens (eq : List Nat) (a b : Nat) (hinv : EqInv eq)
    (ha2 : 2 ≤ a) (ha : a < eq.length) (hb2 : 2 ≤ b) (hb : b < eq.length) :
    (mark_for_merge a b eq).1 = min (find_root eq a) (find_root eq b) ∧
    (∀ P, PathTo eq a P → ∀ x ∈ P,
      (mark_for_merge a b eq).2.getD x 0 = min (find_root eq a) (find_root eq b)) ∧
    (∀ P, PathTo eq b P → ∀ x ∈ P,
      (mark_for_merge a b eq).2.getD x 0 = min (find_root eq a) (find_root eq b)) ∧
    (mark_for_merge a b eq).2.getD (find_root eq a) 0 =
      min (find_root eq a) (find_root eq b) ∧
    (mark_for_merge a b eq).2.getD (find_root eq b) 0 =
      min (find_root eq a) (find_root eq b) := by
  obtain ⟨h1, _, _, _, _, _, hPa, hPb⟩ :=
    mark_for_merge_spec eq hinv a b ha2 ha hb2 hb
  obtain ⟨Pa, hPa'⟩ := exists_pathTo eq hinv.2.2.1 a ha
  obtain ⟨Pb, hPb'⟩ := exists_pathTo eq hinv.2.2.1 b hb
  refine ⟨h1, fun P hP x hx => h1 ▸ hPa P hP x hx, fun P hP x hx => h1 ▸ hPb P hP x hx,
    ?_, ?_⟩
  · have hmem := (pathTo_find_root hinv.2.2.1 hPa' ha).1
    exact h1 ▸ hPa Pa hPa' _ hmem
  · have hmem := (pathTo_find_root hinv.2.2.1 hPb' hb).1
    exact h1 ▸ hPb Pb hPb' _ hmem

/-- C6 witness: in the table `[0, 1, 2, 2, 3]`, merging 4 and 2 flattens the
whole chain `4 → 3 → 2` onto the common root 2. -/
theorem C6_union_flattens_witness :
    EqInv [0, 1, 2, 2, 3] ∧
    (mark_for_merge 4 2 [0, 1, 2, 2, 3]).1 =
      min (find_root [0, 1, 2, 2, 3] 4) (find_root [0, 1, 2, 2, 3] 2) ∧
    (mark_for_merge 4 2 [0, 1, 2, 2, 3]).2.getD (find_root [0, 1, 2, 2, 3] 4) 0 =
      min (find_root [0, 1, 2, 2, 3] 4) (find_root [0, 1, 2, 2, 3] 2) := by
  have h := C6_union_flattens [0, 1, 2, 2, 3] 4 2 (by decide) (by decide) (by decide)
    (by decide) (by decide)
  exact ⟨by decide, h.1, h.2.2.2.1⟩

/-- C10: the downward-pointing invariant (`equivalences[i] ≤ i`, entries 0
and 1 mapping to themselves) holds for the freshly constructed two-entry
table, is preserved by every allocation (which appends
`next_region → next_region`), and is preserved by every `mark_for_merge`
call of a run. -/
theorem C10_table_invariant :
    ((∀ i, i < ([0, 1] : List Nat).length → ([0, 1] : List Nat).getD i 0 ≤ i) ∧
      ([0, 1] : List Nat).getD 0 0 = 0 ∧ ([0, 1] : List Nat).getD 1 0 = 1) ∧
    (∀ maxVal (eq : List Nat) nr lab eq' nr', EqInv eq → eq.length = nr →
      allocate maxVal eq nr = .ok (lab, eq', nr') →
      (∀ i, i < eq'.length → eq'.getD i 0 ≤ i) ∧
      eq'.getD 0 0 = 0 ∧ eq'.getD 1 0 = 1) ∧
    (∀ (eq : List Nat) a b, EqInv eq → 2 ≤ a → a < eq.length → 2 ≤ b →
      b < eq.length →
      (∀ i, i < (mark_for_merge a b eq).2.length →
        (mark_for_merge a b eq).2.getD i 0 ≤ i) ∧
      (mark_for_merge a b eq).2.getD 0 0 = 0 ∧
      (mark_for_merge a b eq).2.getD 1 0 = 1) := by
  refine ⟨⟨by decide, by decide, by decide⟩, ?_, ?_⟩
  · intro maxVal eq nr lab eq' nr' hinv hlen hok
    have heq' : eq' = eq ++ [nr] := by
      by_cases h : nr < maxVal
      · simp [allocate, h] at hok
        exact hok.2.1.symm
      · simp [allocate, h] at hok
    subst heq'
    have hinv' : EqInv (eq ++ [nr]) := hlen ▸ eqInv_append hinv hinv.1
    exact ⟨hinv'.2.2.1, eqInv_zero hinv', hinv'.2.1⟩
  · intro eq a b hinv ha2 ha hb2 hb
    have h := (mark_for_merge_spec eq hinv a b ha2 ha hb2 hb).2.2.1
    exact ⟨h.2.2.1, eqInv_zero h, h.2.1⟩

/-- C10 witness: the invariant for the table obtained by one allocation and
one (trivial) merge on concrete tables. -/
theorem C10_table_invariant_witness :
    ((∀ i, i < ([0, 1, 2] : List Nat).length → ([0, 1, 2] : List Nat).getD i 0 ≤ i) ∧
      ([0, 1, 2] : List Nat).getD 0 0 = 0 ∧ ([0, 1, 2] : List Nat).getD 1 0 = 1) ∧
    ((∀ i, i < (mark_for_merge 4 2 [0, 1, 2, 2, 3]).2.length →
        (mark_for_merge 4 2 [0, 1, 2, 2, 3]).2.getD i 0 ≤ i) ∧
      (mark_for_merge 4 2 [0, 1, 2, 2, 3]).2.getD 0 0 = 0 ∧
      (mark_for_merge 4 2 [0, 1, 2, 2, 3]).2.getD 1 0 = 1) :=
  ⟨C10_table_invariant.2.1 65535 [0, 1] 2 2 [0, 1, 2] 3 (by decide) rfl rfl,
   C10_table_invariant.2.2 [0, 1, 2, 2, 3] 4 2 (by decide) (by decide) (by decide)
     (by decide) (by decide)⟩

/-!
## The kernel preprocessor (claim C8)
-/

/-- The neighbor list as the spec describes it (§4.1): the lane positions
preceding the center lane `(1, 1)` along the innermost axis, in order, with
all-`false` lanes discarded; each surviving lane becomes its 3-boolean
pattern plus its `(dy, dx)` lane coordinate. -/
def kernelDataSpec (K : Vol3 Bool) : List (List Bool × Int × Int) :=
  ([(0, 0), (0, 1), (0, 2), (1, 0)] : List (Nat × Nat)).filterMap fun yx =>
    let lane := [vget false K yx.1 yx.2 0, vget false K yx.1 yx.2 1, vget false K yx.1 yx.2 2]
    if lane.any id then some (lane, ((yx.1 : Int), (yx.2 : Int))) else none

theorem kernel_data_cube (a0 a1 a2 b0 b1 b2 c0 c1 c2 d0 d1 d2 : Bool)
    (l11 l12 l20 l21 l22 : List Bool) :
    kernel_data [[[a0, a1, a2], [b0, b1, b2], [c0, c1, c2]],
      [[d0, d1, d2], l11, l12], [l20, l21, l22]] =
    kernelDataSpec [[[a0, a1, a2], [b0, b1, b2], [c0, c1, c2]],
      [[d0, d1, d2], l11, l12], [l20, l21, l22]] := by
  simp only [kernel_data, kernelDataSpec, vget]
  simp only [List.flatMap_cons, List.flatMap_nil, List.append_nil, List.cons_append,
    List.nil_append, List.length_cons, List.length_nil]
  norm_num
  simp only [List.zip, List.zipWith, List.take]
  simp only [List.filterMap_cons, List.filter_cons, List.filter_nil, List.filterMap_nil,
    List.any_cons, List.any_nil, id_eq, Bool.or_false, Bool.or_eq_true,
    List.getElem?_cons_zero, List.getElem?_cons_succ, Option.getD_some]
  by_cases h1 : a0 = true ∨ a1 = true ∨ a2 = true <;>
  by_cases h2 : b0 = true ∨ b1 = true ∨ b2 = true <;>
  by_cases h3 : c0 = true ∨ c1 = true ∨ c2 = true <;>
  by_cases h4 : d0 = true ∨ d1 = true ∨ d2 = true <;>
  simp [h1, h2, h3, h4]

/-- C8: on a (shape-validated) 3×3×3 kernel the preprocessor's neighbor list
is exactly the spec's list — the lanes preceding the center lane, all-false
lanes discarded, each kept lane paired with its `(dy, dx)` coordinate; the
designated self-labeling entry is the condition `i = len - 1`, which holds
exactly at the last list position; and `use_previous` is `kernel[(1,1,0)]`. -/
theorem C8_kernel_preprocessor (K : Vol3 Bool) (hs : shape3 K = true) :
    kernel_data K = kernelDataSpec K ∧
    use_previous_of K = vget false K 1 1 0 ∧
    (∀ kdLen i, i < kdLen → (isLastEntry kdLen i = true ↔ i + 1 = kdLen)) := by
  refine ⟨?_, rfl, ?_⟩
  · simp only [shape3, Bool.and_eq_true, decide_eq_true_eq, List.all_eq_true] at hs
    obtain ⟨hK3, hrows⟩ := hs
    match K, hK3 with
    | [p0, p1, p2], _ =>
      obtain ⟨hp0, hl0⟩ := hrows p0 (by simp)
      obtain ⟨hp1, hl1⟩ := hrows p1 (by simp)
      obtain ⟨hp2, hl2⟩ := hrows p2 (by simp)
      match p0, hp0 with
      | [l00, l01, l02], _ =>
      match p1, hp1 with
      | [l10, l11, l12], _ =>
      match p2, hp2 with
      | [l20, l21, l22], _ =>
      have e00 := hl0 l00 (by simp); have e01 := hl0 l01 (by simp)
      have e02 := hl0 l02 (by simp)
      have e10 := hl1 l10 (by simp); have e11 := hl1 l11 (by simp)
      have e12 := hl1 l12 (by simp)
      match l00, e00 with
      | [a0, a1, a2], _ =>
      match l01, e01 with
      | [b0, b1, b2], _ =>
      match l02, e02 with
      | [c0, c1, c2], _ =>
      match l10, e10 with
      | [d0, d1, d2], _ =>
        exact kernel_data_cube a0 a1 a2 b0 b1 b2 c0 c1 c2 d0 d1 d2 l11 l12 l20 l21 l22
  · intro kdLen i hi
    simp only [isLastEntry, decide_eq_true_eq]
    omega

/-- C8 witness: the star kernel's preprocessor output matches the spec's
list. -/
theorem C8_kernel_preprocessor_witness :
    shape3 [[[false, false, false], [false, true, false], [false, false, false]],
      [[false, true, false], [true, true, true], [false, true, false]],
      [[false, false, false], [false, true, false], [false, false, false]]] = true ∧
    kernel_data [[[false, false, false], [false, true, false], [false, false, false]],
      [[false, true, false], [true, true, true], [false, true, false]],
      [[false, false, false], [false, true, false], [false, false, false]]] =
    kernelDataSpec [[[false, false, false], [false, true, false], [false, false, false]],
      [[false, true, false], [true, true, true], [false, true, false]],
      [[false, false, false], [false, true, false], [false, false, false]]] :=
  ⟨by decide, (C8_kernel_preprocessor _ (by decide)).1⟩

/-!
## Value invariants of the line buffers

During a run, a cell of the line buffer holds `0` (background), `1`
(foreground sentinel) or an allocated region id in `[2, next_region)`;
an already finalized cell (and every neighbor-buffer cell) holds `0` or an
allocated region id.
-/

def CellVal (nr v : Nat) : Prop := v = 0 ∨ v = 1 ∨ (2 ≤ v ∧ v < nr)

def DoneVal (nr v : Nat) : Prop := v = 0 ∨ (2 ≤ v ∧ v < nr)

theorem CellVal.widen {nr nr' v : Nat} (h : CellVal nr v) (hle : nr ≤ nr') :
    CellVal nr' v := by
  rcases h with h | h | h
  · exact Or.inl h
  · exact Or.inr (Or.inl h)
  · exact Or.inr (Or.inr ⟨h.1, lt_of_lt_of_le h.2 hle⟩)

theorem DoneVal.relax {nr nr' v : Nat} (h : DoneVal nr v) (hle : nr ≤ nr') :
    DoneVal nr' v := by
  rcases h with h | h
  · exact Or.inl h
  · exact Or.inr ⟨h.1, lt_of_lt_of_le h.2 hle⟩

theorem take_label_or_merge_spec (eq : List Nat) (hinv : EqInv eq) (c n : Nat)
    (hc : c = 1 ∨ (2 ≤ c ∧ c < eq.length))
    (hn : n = 0 ∨ (2 ≤ n ∧ n < eq.length)) :
    EqInv (take_label_or_merge c n eq).2 ∧
    (take_label_or_merge c n eq).2.length = eq.length ∧
    ((take_label_or_merge c n eq).1 = 1 ∨
      (2 ≤ (take_label_or_merge c n eq).1 ∧ (take_label_or_merge c n eq).1 < eq.length)) ∧
    ((take_label_or_merge c n eq).1 = 1 → c = 1) ∧
    (2 ≤ c → 2 ≤ (take_label_or_merge c n eq).1) := by
  by_cases hn0 : n = 0
  · have he : take_label_or_merge c n eq = (c, eq) := by
      simp [take_label_or_merge, hn0]
    rw [he]
    exact ⟨hinv, rfl, hc, fun h => h, fun h => h⟩
  · have hn2 : 2 ≤ n ∧ n < eq.length := hn.resolve_left hn0
    by_cases hc1 : c = 1
    · have he : take_label_or_merge c n eq = (n, eq) := by
        simp [take_label_or_merge, hn0, hc1]
      rw [he]
      exact ⟨hinv, rfl, Or.inr hn2, fun h => absurd (h : n = 1) (by omega),
        fun h => absurd (h : 2 ≤ c) (by omega)⟩
    · by_cases hcn : c = n
      · have he : take_label_or_merge c n eq = (c, eq) := by
          simp [take_label_or_merge, hn0, hc1, hcn]
        rw [he]
        exact ⟨hinv, rfl, hc, fun h => h, fun h => h⟩
      · have he : take_label_or_merge c n eq = mark_for_merge n c eq := by
          simp [take_label_or_merge, hn0, hc1, hcn]
        rw [he]
        have hc2 : 2 ≤ c ∧ c < eq.length := hc.resolve_left hc1
        obtain ⟨_, hlen, hinv', hlo2, hloa, hlob, _, _⟩ :=
          mark_for_merge_spec eq hinv n c hn2.1 hn2.2 hc2.1 hc2.2
        exact ⟨hinv', hlen, Or.inr ⟨hlo2, lt_of_le_of_lt hlob hc2.2⟩,
          fun h => absurd (hlo2.trans_eq h) (by omega), fun _ => hlo2⟩

/-- The fold of `cellMerges` over an arbitrary list of
(neighbor value, kernel flag) pairs. -/
theorem foldMerges_spec (ps : List (Nat × Bool)) :
    ∀ (c : Nat) (eq : List Nat), EqInv eq →
      (c = 1 ∨ (2 ≤ c ∧ c < eq.length)) →
      (∀ p ∈ ps, p.1 = 0 ∨ (2 ≤ p.1 ∧ p.1 < eq.length)) →
      EqInv (ps.foldl
        (fun acc p => if p.2 then take_label_or_merge acc.1 p.1 acc.2 else acc) (c, eq)).2 ∧
      (ps.foldl
        (fun acc p => if p.2 then take_label_or_merge acc.1 p.1 acc.2 else acc) (c, eq)).2.length
        = eq.length ∧
      ((ps.foldl
        (fun acc p => if p.2 then take_label_or_merge acc.1 p.1 acc.2 else acc) (c, eq)).1 = 1 ∨
        (2 ≤ (ps.foldl
          (fun acc p => if p.2 then take_label_or_merge acc.1 p.1 acc.2 else acc) (c, eq)).1 ∧
         (ps.foldl
          (fun acc p => if p.2 then take_label_or_merge acc.1 p.1 acc.2 else acc) (c, eq)).1
           < eq.length)) ∧
      ((ps.foldl
        (fun acc p => if p.2 then take_label_or_merge acc.1 p.1 acc.2 else acc) (c, eq)).1 = 1
        → c = 1) ∧
      (2 ≤ c → 2 ≤ (ps.foldl
        (fun acc p => if p.2 then take_label_or_merge acc.1 p.1 acc.2 else acc) (c, eq)).1) := by
  induction ps with
  | nil =>
    intro c eq hinv hc _
    exact ⟨hinv, rfl, hc, fun h => h, fun h => h⟩
  | cons p ps ih =>
    intro c eq hinv hc hps
    simp only [List.foldl_cons]
    by_cases hp : p.2 = true
    · rw [if_pos hp]
      obtain ⟨hinv', hlen', hval', hone', htwo'⟩ :=
        take_label_or_merge_spec eq hinv c p.1 hc (hps p (List.mem_cons_self p ps))
      have hstate : (take_label_or_merge c p.1 eq) =
          ((take_label_or_merge c p.1 eq).1, (take_label_or_merge c p.1 eq).2) := rfl
      rw [hstate]
      obtain ⟨i1, i2, i3, i4, i5⟩ := ih (take_label_or_merge c p.1 eq).1
        (take_label_or_merge c p.1 eq).2 hinv' (hlen' ▸ hval')
        (fun q hq => hlen' ▸ hps q (List.mem_cons_of_mem p hq))
      rw [hlen'] at i2 i3
      exact ⟨i1, i2, i3, fun h => hone' (i4 h), fun h => i5 (htwo' h)⟩
    · rw [if_neg (by simpa using hp)]
      exact ih c eq hinv hc fun q hq => hps q (List.mem_cons_of_mem p hq)

theorem getD_ne_zero_lt {l : List Nat} {k : Nat} (h : l.getD k 0 ≠ 0) : k < l.length := by
  by_contra hk
  exact h (getD_of_len_le l (by omega))

theorem set_cell_facts (line : List Nat) (j v : Nat) (hjlt : j + 1 < line.length) :
    (line.set (j + 1) v).length = line.length ∧
    (∀ k, k ≠ j + 1 → (line.set (j + 1) v).getD k 0 = line.getD k 0) ∧
    (line.set (j + 1) v).getD (j + 1) 0 = v :=
  ⟨by simp, fun k hk => getD_set_ne line v fun h => hk h.symm,
   getD_set_self line (j + 1) v hjlt⟩

theorem lineStep_spec (maxVal : Nat) (kernel : List Bool) (up lu : Bool)
    (neighbors : List Nat) (j : Nat) (line eq : List Nat) (nr prev : Nat)
    (line' eq' : List Nat) (nr' prev' : Nat)
    (hinv : EqInv eq) (hlen : eq.length = nr) (hmax : nr ≤ maxVal)
    (hline : ∀ k, CellVal nr (line.getD k 0))
    (hnb : ∀ k, DoneVal nr (neighbors.getD k 0))
    (hprev : lu = true → DoneVal nr prev)
    (hok : lineStep maxVal kernel up lu neighbors j (line, eq, nr, prev) =
      .ok (line', eq', nr', prev')) :
    EqInv eq' ∧ eq'.length = nr' ∧ nr ≤ nr' ∧ nr' ≤ maxVal ∧
    line'.length = line.length ∧
    (∀ k, k ≠ j + 1 → line'.getD k 0 = line.getD k 0) ∧
    (line'.getD (j + 1) 0 = 0 ↔ line.getD (j + 1) 0 = 0) ∧
    (∀ k, CellVal nr' (line'.getD k 0)) ∧
    (lu = true → line'.getD (j + 1) 0 ≠ 1) ∧
    (∀ k, line'.getD k 0 = 1 → line.getD k 0 = 1) ∧
    prev' = line'.getD (j + 1) 0 ∧
    (lu = true → DoneVal nr' prev') := by
  by_cases hl0 : line.getD (j + 1) 0 = 0
  · -- background cell: nothing happens
    have heq : lineStep maxVal kernel up lu neighbors j (line, eq, nr, prev) =
        .ok (line, eq, nr, line.getD (j + 1) 0) := by
      simp only [lineStep]
      rw [if_neg (not_not_intro hl0)]
    rw [heq] at hok
    have h4 := LRes.ok.inj hok
    simp only [Prod.mk.injEq] at h4
    obtain ⟨rfl, rfl, rfl, rfl⟩ := h4
    refine ⟨hinv, hlen, le_refl _, hmax, rfl, fun k _ => rfl, Iff.rfl, hline,
      fun _ => by rw [hl0]; omega, fun k h => h, hl0.symm ▸ rfl, fun _ => Or.inl hl0⟩
  · -- foreground cell
    have hjlt : j + 1 < line.length := getD_ne_zero_lt hl0
    have hnr2 : 2 ≤ nr := hlen ▸ hinv.1
    have hps : ∀ p ∈ ([neighbors.getD j 0, neighbors.getD (j + 1) 0,
        neighbors.getD (j + 2) 0].zip kernel), p.1 = 0 ∨ (2 ≤ p.1 ∧ p.1 < eq.length) := by
      intro p hp
      have hp1 := (List.of_mem_zip hp).1
      have hval : DoneVal nr p.1 := by
        rcases List.mem_cons.mp hp1 with h | h
        · rw [h]; exact hnb j
        rcases List.mem_cons.mp h with h | h
        · rw [h]; exact hnb (j + 1)
        · rw [List.mem_singleton.mp h]; exact hnb (j + 2)
      rw [hlen]
      exact hval
    have hc : line.getD (j + 1) 0 = 1 ∨
        (2 ≤ line.getD (j + 1) 0 ∧ line.getD (j + 1) 0 < eq.length) := by
      have := hline (j + 1)
      rw [hlen]
      rcases this with h | h | h
      · exact absurd h hl0
      · exact Or.inl h
      · exact Or.inr h
    obtain ⟨finv, flen, fval, fone, ftwo⟩ := foldMerges_spec _ _ eq hinv hc hps
    have hcm : cellMerges (line.getD (j + 1) 0)
        [neighbors.getD j 0, neighbors.getD (j + 1) 0, neighbors.getD (j + 2) 0] kernel eq =
        List.foldl
          (fun acc p => if p.2 = true then take_label_or_merge acc.1 p.1 acc.2 else acc)
          (line.getD (j + 1) 0, eq)
          ([neighbors.getD j 0, neighbors.getD (j + 1) 0,
            neighbors.getD (j + 2) 0].zip kernel) := rfl
    rw [← hcm] at finv flen fval fone ftwo
    set l1 := (cellMerges (line.getD (j + 1) 0)
      [neighbors.getD j 0, neighbors.getD (j + 1) 0, neighbors.getD (j + 2) 0] kernel eq).1
      with hl1_def
    set eq1 := (cellMerges (line.getD (j + 1) 0)
      [neighbors.getD j 0, neighbors.getD (j + 1) 0, neighbors.getD (j + 2) 0] kernel eq).2
      with heq1_def
    by_cases hlu : lu = true
    · -- label_unlabeled pass
      subst hlu
      have hup2 : EqInv ((if up = true then take_label_or_merge l1 prev eq1
          else (l1, eq1)).2) ∧
          (if up = true then take_label_or_merge l1 prev eq1 else (l1, eq1)).2.length
            = eq.length ∧
          ((if up = true then take_label_or_merge l1 prev eq1 else (l1, eq1)).1 = 1 ∨
            (2 ≤ (if up = true then take_label_or_merge l1 prev eq1 else (l1, eq1)).1 ∧
             (if up = true then take_label_or_merge l1 prev eq1 else (l1, eq1)).1
               < eq.length)) ∧
          ((if up = true then take_label_or_merge l1 prev eq1 else (l1, eq1)).1 = 1 →
            line.getD (j + 1) 0 = 1) := by
        by_cases hup : up = true
        · simp only [if_pos hup]
          have hprev' : prev = 0 ∨ (2 ≤ prev ∧ prev < eq1.length) := by
            rcases hprev rfl with h | h
            · exact Or.inl h
            · exact Or.inr ⟨h.1, by rw [flen, hlen]; exact h.2⟩
          obtain ⟨tinv, tlen, tval, tone, _⟩ :=
            take_label_or_merge_spec eq1 finv l1 prev (flen ▸ fval) hprev'
          rw [flen] at tlen tval
          exact ⟨tinv, tlen, tval, fun h => fone (tone h)⟩
        · simp only [if_neg hup]
          exact ⟨finv, flen, fval, fone⟩
      set l2 := (if up = true then take_label_or_merge l1 prev eq1 else (l1, eq1)).1
        with hl2_def
      set eq2 := (if up = true then take_label_or_merge l1 prev eq1 else (l1, eq1)).2
        with heq2_def
      obtain ⟨tinv, tlen, tval, tone⟩ := hup2
      by_cases hl2 : l2 = 1
      · -- still sentinel: allocate a fresh region
        by_cases halloc : nr < maxVal
        · have heq : lineStep maxVal kernel up true neighbors j (line, eq, nr, prev) =
              .ok (line.set (j + 1) nr, eq2 ++ [nr], nr + 1, nr) := by
            simp only [lineStep]
            rw [if_pos hl0]
            simp only [← hl1_def, ← heq1_def, if_pos rfl, ← hl2_def, ← heq2_def]
            rw [if_pos hl2]
            simp only [allocate, if_pos halloc]
            rw [if_pos trivial]
          rw [heq] at hok
          have h4 := LRes.ok.inj hok
          simp only [Prod.mk.injEq] at h4
          obtain ⟨rfl, rfl, rfl, rfl⟩ := h4
          obtain ⟨s1, s2, s3⟩ := set_cell_facts line j nr hjlt
          have hinv3 : EqInv (eq2 ++ [nr]) := by
            have h2e : (2 : Nat) ≤ eq2.length := by rw [tlen, hlen]; exact hnr2
            have := eqInv_append tinv h2e
            rw [tlen, hlen] at this
            exact this
          refine ⟨hinv3, by simp [tlen, hlen], by omega, by omega, s1, s2, ?_, ?_, ?_, ?_,
            s3.symm, ?_⟩
          · rw [s3]
            constructor
            · intro h; omega
            · intro h; exact absurd h hl0
          · intro k
            by_cases hk : k = j + 1
            · rw [hk, s3]; exact Or.inr (Or.inr ⟨by omega, by omega⟩)
            · rw [s2 k hk]; exact (hline k).widen (by omega)
          · intro _; rw [s3]; omega
          · intro k hk
            by_cases hk' : k = j + 1
            · rw [hk', s3] at hk; omega
            · rw [s2 k hk'] at hk; exact hk
          · intro _; exact Or.inr ⟨by omega, by omega⟩
        · -- overflow: the run aborts, contradicting hok
          have heq : lineStep maxVal kernel up true neighbors j (line, eq, nr, prev) =
              .err .overflowErr := by
            simp only [lineStep]
            rw [if_pos hl0]
            simp only [← hl1_def, ← heq1_def, if_pos rfl, ← hl2_def, ← heq2_def]
            rw [if_pos hl2]
            simp only [allocate, if_neg halloc]
            rw [if_pos trivial]
          rw [heq] at hok
          exact absurd hok (by simp)
      · -- took a neighbor or merged
        have heq : lineStep maxVal kernel up true neighbors j (line, eq, nr, prev) =
            .ok (line.set (j + 1) l2, eq2, nr, l2) := by
          simp only [lineStep]
          rw [if_pos hl0]
          simp only [← hl1_def, ← heq1_def, if_pos rfl, ← hl2_def, ← heq2_def]
          rw [if_neg hl2]
          rw [if_pos trivial]
        rw [heq] at hok
        have h4 := LRes.ok.inj hok
        simp only [Prod.mk.injEq] at h4
        obtain ⟨rfl, rfl, rfl, rfl⟩ := h4
        obtain ⟨s1, s2, s3⟩ := set_cell_facts line j l2 hjlt
        have hl2v : 2 ≤ l2 ∧ l2 < nr := by
          rcases tval with h | h
          · exact absurd h hl2
          · exact ⟨h.1, hlen ▸ h.2⟩
        refine ⟨tinv, by rw [tlen, hlen], le_refl _, hmax, s1, s2, ?_, ?_, ?_, ?_,
          s3.symm, ?_⟩
        · rw [s3]
          constructor
          · intro h; omega
          · intro h; exact absurd h hl0
        · intro k
          by_cases hk : k = j + 1
          · rw [hk, s3]; exact Or.inr (Or.inr hl2v)
          · rw [s2 k hk]; exact hline k
        · intro _; rw [s3]; exact hl2
        · intro k hk
          by_cases hk' : k = j + 1
          · rw [hk', s3] at hk; exact absurd hk hl2
          · rw [s2 k hk'] at hk; exact hk
        · intro _; exact Or.inr hl2v
    · -- not the self-labeling pass
      have hlu' : lu = false := by
        rcases lu with _ | _
        · rfl
        · exact absurd rfl hlu
      subst hlu'
      have heq : lineStep maxVal kernel up false neighbors j (line, eq, nr, prev) =
          .ok (line.set (j + 1) l1, eq1, nr, l1) := by
        simp only [lineStep]
        rw [if_pos hl0]
        simp only [← hl1_def, ← heq1_def]
        simp
      rw [heq] at hok
      have h4 := LRes.ok.inj hok
      simp only [Prod.mk.injEq] at h4
      obtain ⟨rfl, rfl, rfl, rfl⟩ := h4
      obtain ⟨s1, s2, s3⟩ := set_cell_facts line j l1 hjlt
      have hl1v : l1 = 1 ∨ (2 ≤ l1 ∧ l1 < nr) := by
        rcases fval with h | h
        · exact Or.inl h
        · exact Or.inr ⟨h.1, hlen ▸ h.2⟩
      refine ⟨finv, by rw [flen, hlen], le_refl _, hmax, s1, s2, ?_, ?_, ?_, ?_,
        s3.symm, ?_⟩
      · rw [s3]
        constructor
        · intro h; rcases hl1v with h' | h' <;> omega
        · intro h; exact absurd h hl0
      · intro k
        by_cases hk : k = j + 1
        · rw [hk, s3]
          rcases hl1v with h | h
          · exact Or.inr (Or.inl h)
          · exact Or.inr (Or.inr h)
        · rw [s2 k hk]; exact hline k
      · intro h; exact absurd h (by simp)
      · intro k hk
        by_cases hk' : k = j + 1
        · rw [hk', s3] at hk
          rw [hk']
          exact fone hk
        · rw [s2 k hk'] at hk; exact hk
      · intro h; exact absurd h (by simp)

theorem lineLoop_spec (maxVal : Nat) (kernel : List Bool) (up lu : Bool)
    (neighbors : List Nat) :
    ∀ (n s : Nat) (line eq : List Nat) (nr prev : Nat)
      (line' eq' : List Nat) (nr' prev' : Nat),
      EqInv eq → eq.length = nr → nr ≤ maxVal →
      (∀ k, CellVal nr (line.getD k 0)) →
      (∀ k, DoneVal nr (neighbors.getD k 0)) →
      (lu = true → DoneVal nr prev) →
      lineLoop maxVal kernel up lu neighbors (List.range' s n) (line, eq, nr, prev) =
        .ok (line', eq', nr', prev') →
      EqInv eq' ∧ eq'.length = nr' ∧ nr ≤ nr' ∧ nr' ≤ maxVal ∧
      line'.length = line.length ∧
      (∀ k, (k < s + 1 ∨ s + n < k) → line'.getD k 0 = line.getD k 0) ∧
      (∀ k, line'.getD k 0 = 0 ↔ line.getD k 0 = 0) ∧
      (∀ k, CellVal nr' (line'.getD k 0)) ∧
      (lu = true → ∀ k, s + 1 ≤ k → k ≤ s + n → line'.getD k 0 ≠ 1) ∧
      (∀ k, line'.getD k 0 = 1 → line.getD k 0 = 1) ∧
      (lu = true → DoneVal nr' prev') := by
  intro n
  induction n with
  | zero =>
    intro s line eq nr prev line' eq' nr' prev' hinv hlen hmax hline hnb hprev hok
    simp only [List.range', lineLoop] at hok
    have h4 := LRes.ok.inj hok
    simp only [Prod.mk.injEq] at h4
    obtain ⟨rfl, rfl, rfl, rfl⟩ := h4
    exact ⟨hinv, hlen, le_refl _, hmax, rfl, fun k _ => rfl, fun k => Iff.rfl, hline,
      fun _ k h1 h2 => by omega, fun k h => h, hprev⟩
  | succ n ih =>
    intro s line eq nr prev line' eq' nr' prev' hinv hlen hmax hline hnb hprev hok
    have hr : List.range' s (n + 1) = s :: List.range' (s + 1) n := by
      simp [List.range']
    rw [hr] at hok
    simp only [lineLoop] at hok
    rcases hstep : lineStep maxVal kernel up lu neighbors s (line, eq, nr, prev) with
      st1 | e
    · rw [hstep] at hok
      obtain ⟨line1, eq1, nr1, prev1⟩ := st1
      obtain ⟨i1, i2, i3, i4, i5, i6, i7, i8, i9, i10, i11, i12⟩ :=
        lineStep_spec maxVal kernel up lu neighbors s line eq nr prev line1 eq1 nr1 prev1
          hinv hlen hmax hline hnb hprev hstep
      obtain ⟨j1, j2, j3, j4, j5, j6, j7, j8, j9, j10, j11⟩ :=
        ih (s + 1) line1 eq1 nr1 prev1 line' eq' nr' prev' i1 i2 i4 i8
          (fun k => (hnb k).relax i3) i12 hok
      refine ⟨j1, j2, le_trans i3 j3, j4, j5.trans i5, ?_, ?_, j8, ?_, ?_, j11⟩
      · intro k hk
        have hk1 : k ≠ s + 1 := by omega
        rw [j6 k (by omega), i6 k hk1]
      · intro k
        by_cases hk1 : k = s + 1
        · subst hk1
          rw [j6 (s + 1) (by omega)]
          exact i7
        · rw [j7 k, i6 k hk1]
      · intro hlu k hk1 hk2
        by_cases hk : k = s + 1
        · subst hk
          rw [j6 (s + 1) (by omega)]
          exact i9 hlu
        · exact j9 hlu k (by omega) (by omega)
      · intro k hk
        exact i10 k (j10 k hk)
    · rw [hstep] at hok
      exact absurd hok (by simp)

theorem label_line_spec (maxVal : Nat) (line neighbors eq : List Nat)
    (kernel : List Bool) (up lu : Bool) (nr len : Nat)
    (line' eq' : List Nat) (nr' : Nat)
    (hinv : EqInv eq) (hlen : eq.length = nr) (hmax : nr ≤ maxVal)
    (hline : ∀ k, CellVal nr (line.getD k 0))
    (h0 : line.getD 0 0 = 0)
    (hnb : ∀ k, DoneVal nr (neighbors.getD k 0))
    (hok : label_line_with_neighbor maxVal line neighbors eq kernel up lu nr len =
      .ok (line', eq', nr')) :
    EqInv eq' ∧ eq'.length = nr' ∧ nr ≤ nr' ∧ nr' ≤ maxVal ∧
    line'.length = line.length ∧
    (∀ k, (k = 0 ∨ len < k) → line'.getD k 0 = line.getD k 0) ∧
    (∀ k, line'.getD k 0 = 0 ↔ line.getD k 0 = 0) ∧
    (∀ k, CellVal nr' (line'.getD k 0)) ∧
    (lu = true → ∀ k, 1 ≤ k → k ≤ len → line'.getD k 0 ≠ 1) ∧
    (∀ k, line'.getD k 0 = 1 → line.getD k 0 = 1) := by
  unfold label_line_with_neighbor at hok
  rcases hloop : lineLoop maxVal kernel up lu neighbors (List.range len)
      (line, eq, nr, line.getD 0 0) with st | e
  · obtain ⟨lineF, eqF, nrF, prevF⟩ := st
    rw [List.range_eq_range'] at hloop
    obtain ⟨j1, j2, j3, j4, j5, j6, j7, j8, j9, j10, _⟩ :=
      lineLoop_spec maxVal kernel up lu neighbors len 0 line eq nr
        (line.getD 0 0) lineF eqF nrF prevF hinv hlen hmax hline hnb
        (fun _ => Or.inl h0) hloop
    rw [← List.range_eq_range'] at hloop
    rw [hloop] at hok
    simp only [bind, pure] at hok
    have h4 := LRes.ok.inj hok
    simp only [Prod.mk.injEq] at h4
    obtain ⟨rfl, rfl, rfl⟩ := h4
    refine ⟨j1, j2, j3, j4, j5, ?_, j7, j8, fun hlu k h1 h2 => j9 hlu k (by omega) (by omega),
      j10⟩
    intro k hk
    exact j6 k (by omega)
  · rw [hloop] at hok
    simp only [bind] at hok
    exact absurd hok (by simp)

theorem padded_vals {nr : Nat} (l : List Nat)
    (h : ∀ k, DoneVal nr (l.getD k 0)) :
    ∀ k, DoneVal nr ((0 :: l ++ [0]).getD k 0) := by
  intro k
  cases k with
  | zero => exact Or.inl rfl
  | succ k =>
    have hc : ((0 : Nat) :: l ++ [0]).getD (k + 1) 0 = (l ++ [0]).getD k 0 := rfl
    rw [hc]
    by_cases hk : k < l.length
    · rw [getD_append_lt l 0 hk]
      exact h k
    · by_cases hk2 : k = l.length
      · subst hk2
        rw [getD_append_len]
        exact Or.inl rfl
      · rw [getD_of_len_le (l ++ [0]) (by simp; omega)]
        exact Or.inl rfl

theorem neighborPass_spec (maxVal kdLen : Nat) (up : Bool) (idx : Nat × Nat)
    (dims : Int × Int) (len : Nat) (labels : Vol3 Nat) :
    ∀ (es : List (Nat × (List Bool × Int × Int)))
      (line eq : List Nat) (nr : Nat) (neighbors : List Nat) (needs : Bool)
      (line' eq' : List Nat) (nr' : Nat) (neighbors' : List Nat) (needs' : Bool),
      EqInv eq → eq.length = nr → nr ≤ maxVal →
      (∀ k, CellVal nr (line.getD k 0)) →
      line.getD 0 0 = 0 →
      (∀ x y k, DoneVal nr ((vlane labels x y).getD k 0)) →
      (∀ k, DoneVal nr (neighbors.getD k 0)) →
      (needs = false → ∀ k, 1 ≤ k → k ≤ len → line.getD k 0 ≠ 1) →
      neighborPass maxVal kdLen up idx dims len labels es
        (line, eq, nr, neighbors, needs) = .ok (line', eq', nr', neighbors', needs') →
      EqInv eq' ∧ eq'.length = nr' ∧ nr ≤ nr' ∧ nr' ≤ maxVal ∧
      line'.length = line.length ∧
      line'.getD 0 0 = 0 ∧
      (∀ k, line'.getD k 0 = 0 ↔ line.getD k 0 = 0) ∧
      (∀ k, CellVal nr' (line'.getD k 0)) ∧
      (∀ k, line'.getD k 0 = 1 → line.getD k 0 = 1) ∧
      (∀ k, DoneVal nr' (neighbors'.getD k 0)) ∧
      (needs' = false → ∀ k, 1 ≤ k → k ≤ len → line'.getD k 0 ≠ 1) := by
  intro es
  induction es with
  | nil =>
    intro line eq nr neighbors needs line' eq' nr' neighbors' needs'
      hinv hlen hmax hline h0 hlab hnb hneeds hok
    simp only [neighborPass] at hok
    have h5 := LRes.ok.inj hok
    simp only [Prod.mk.injEq] at h5
    obtain ⟨rfl, rfl, rfl, rfl, rfl⟩ := h5
    exact ⟨hinv, hlen, le_refl _, hmax, rfl, h0, fun k => Iff.rfl, hline,
      fun k h => h, hnb, hneeds⟩
  | cons e rest ih =>
    intro line eq nr neighbors needs line' eq' nr' neighbors' needs'
      hinv hlen hmax hline h0 hlab hnb hneeds hok
    obtain ⟨i, entry⟩ := e
    simp only [neighborPass] at hok
    split at hok
    next xy hxy =>
      split at hok
      next st2 hline2 =>
        obtain ⟨l2, e2, n2⟩ := st2
        obtain ⟨j1, j2, j3, j4, j5, j6, j7, j8, j9, j10⟩ :=
          label_line_spec maxVal line (0 :: vlane labels xy.1 xy.2 ++ [0]) eq entry.1 up
            (isLastEntry kdLen i) nr len l2 e2 n2 hinv hlen hmax hline h0
            (padded_vals _ (hlab xy.1 xy.2)) hline2
        obtain ⟨k1, k2, k3, k4, k5, k6, k7, k8, k9, k10, k11⟩ :=
          ih l2 e2 n2 (0 :: vlane labels xy.1 xy.2 ++ [0])
            (if isLastEntry kdLen i = true then false else needs)
            line' eq' nr' neighbors' needs' j1 j2 j4 j8
            (by rw [j6 0 (Or.inl rfl)]; exact h0)
            (fun x y k => (hlab x y k).relax j3)
            (fun k => (padded_vals _ (hlab xy.1 xy.2) k).relax j3)
            (by
              by_cases hlu : isLastEntry kdLen i = true
              · rw [if_pos hlu]
                intro _
                exact j9 hlu
              · rw [if_neg hlu]
                intro hn k hk1 hk2
                intro h1
                exact hneeds hn k hk1 hk2 (j10 k h1))
            hok
        refine ⟨k1, k2, le_trans j3 k3, k4, k5.trans j5, k6, ?_, k8, ?_, k10, k11⟩
        · intro k
          rw [k7 k, j7 k]
        · intro k hk
          exact j10 k (k9 k hk)
      next e2 hline2 =>
        exact absurd hok (by simp)
    next hxy =>
      exact ih line eq nr neighbors needs line' eq' nr' neighbors' needs'
        hinv hlen hmax hline h0 hlab hnb hneeds hok

/-!
## Per-lane processing
-/

theorem getD_set_self' {α : Type} (l : List α) (i : Nat) (v d : α) (h : i < l.length) :
    (l.set i v).getD i d = v := by
  simp [List.getD, List.getElem?_set_self, h]

theorem getD_set_ne' {α : Type} (l : List α) {i j : Nat} (v d : α) (h : i ≠ j) :
    (l.set i v).getD j d = l.getD j d := by
  simp [List.getD, List.getElem?_set_ne h]

theorem getD_mem' {α : Type} (l : List α) (i : Nat) (d : α) (h : i < l.length) :
    l.getD i d ∈ l := by
  rw [List.getD_eq_getElem l d h]
  exact List.getElem_mem h

theorem vlane_setLane_self {α : Type} (L : Vol3 α) {x y : Nat} (nl : List α)
    (hx : x < L.length) (hy : y < (L.getD x []).length) :
    vlane (setLane L x y nl) x y = nl := by
  unfold vlane setLane
  rw [getD_set_self' L x _ [] hx]
  exact getD_set_self' _ y nl [] hy

theorem vlane_setLane_other {α : Type} (L : Vol3 α) {x y x' y' : Nat} (nl : List α)
    (h : x ≠ x' ∨ y ≠ y') : vlane (setLane L x y nl) x' y' = vlane L x' y' := by
  unfold vlane setLane
  by_cases hx : x = x'
  · subst hx
    have hy : y ≠ y' := h.resolve_left (fun hc => hc rfl)
    by_cases hxl : x < L.length
    · rw [getD_set_self' L x _ [] hxl]
      exact getD_set_ne' _ nl [] hy
    · rw [List.set_eq_of_length_le (by omega)]
  · rw [getD_set_ne' L _ [] hx]

theorem wf3_setLane {α : Type} {L : Vol3 α} {w h d x y : Nat} (hwf : wf3 L w h d)
    (nl : List α) (hl : nl.length = d) (hx : x < w) (hy : y < h) :
    wf3 (setLane L x y nl) w h d := by
  obtain ⟨hw, hrows⟩ := hwf
  refine ⟨by unfold setLane; simp [hw], ?_⟩
  intro p hp
  rcases List.mem_or_eq_of_mem_set hp with hmem | heq
  · exact hrows p hmem
  · subst heq
    have hrow : (L.getD x []) ∈ L := getD_mem' L x [] (by omega)
    obtain ⟨hrl, hlanes⟩ := hrows _ hrow
    refine ⟨by rw [List.length_set]; exact hrl, ?_⟩
    intro l hlmem
    rcases List.mem_or_eq_of_mem_set hlmem with hmem2 | heq2
    · exact hlanes l hmem2
    · subst heq2; exact hl

/-- Invariant of the scan state threaded through `label`'s per-lane loop. -/
def ScanInv (maxVal : Nat) (st : ScanState) : Prop :=
  EqInv st.eq ∧ st.eq.length = st.nr ∧ st.nr ≤ maxVal ∧
  (∀ x y k, DoneVal st.nr ((vlane st.labels x y).getD k 0)) ∧
  (∀ k, DoneVal st.nr (st.neighbors.getD k 0))

theorem dropTake_getD (l : List Nat) (len k : Nat) (hk : k < len) :
    ((l.drop 1).take len).getD k 0 = l.getD (k + 1) 0 := by
  simp only [List.getD, List.get?_eq_getElem?, List.getElem?_take, hk, if_pos,
    List.getElem?_drop]
  rw [Nat.add_comm]

theorem dropTake_len (l : List Nat) (len : Nat) (h2 : l.length = len + 2) :
    ((l.drop 1).take len).length = len := by
  simp [h2]

theorem getD_le_len {α : Type} (l : List α) (d : α) {k : Nat} (h : l.length ≤ k) :
    l.getD k d = d := by
  simp [List.getD, List.getElem?_eq_none h]

theorem initLine_zero (lane : List Bool) (k : Nat) (hk : k < lane.length) :
    (((0 : Nat) :: lane.map (fun v => if v = true then (1 : Nat) else 0) ++ [0]).getD
      (k + 1) 0 = 0) ↔ lane.getD k false = false := by
  have hc : ((0 : Nat) :: lane.map (fun v => if v = true then (1 : Nat) else 0) ++ [0]).getD
      (k + 1) 0 = (lane.map (fun v => if v = true then (1 : Nat) else 0) ++ [0]).getD k 0 :=
    rfl
  rw [hc, getD_append_lt _ 0 (by simp [hk]), List.getD_eq_getElem _ 0 (by simp [hk]),
    List.getD_eq_getElem _ false hk]
  simp only [List.getElem_map]
  by_cases hv : lane[k] = true
  · rw [if_pos hv]; simp [hv]
  · rw [if_neg hv]
    rw [Bool.not_eq_true] at hv
    simp [hv]

theorem vlane_setLane_cases {α : Type} (L : Vol3 α) (x y x' y' : Nat) (nl : List α) :
    vlane (setLane L x y nl) x' y' = nl ∨
    vlane (setLane L x y nl) x' y' = vlane L x' y' := by
  unfold vlane setLane
  by_cases hx' : x = x'
  · subst hx'
    by_cases hxl : x < L.length
    · rw [getD_set_self' L x _ [] hxl]
      by_cases hy' : y = y'
      · subst hy'
        by_cases hyl : y < (L.getD x []).length
        · exact Or.inl (getD_set_self' _ y nl [] hyl)
        · rw [List.set_eq_of_length_le (by omega)]
          exact Or.inr rfl
      · exact Or.inr (getD_set_ne' _ nl [] hy')
    · rw [List.set_eq_of_length_le (by omega)]
      exact Or.inr rfl
  · rw [getD_set_ne' L _ [] hx']
    exact Or.inr rfl

theorem processLane_spec (maxVal len : Nat) (kd : List (List Bool × Int × Int))
    (up : Bool) (dims : Int × Int) (st : ScanState) (idx : Nat × Nat)
    (lane : List Bool) (st' : ScanState)
    (hinv : ScanInv maxVal st) (hlane : lane.length = len)
    (hok : processLane maxVal len kd up dims st idx lane = .ok st') :
    ScanInv maxVal st' ∧ st.nr ≤ st'.nr ∧
    ∃ nl : List Nat,
      st'.labels = setLane st.labels idx.1 idx.2 nl ∧ nl.length = len ∧
      (∀ k, nl.getD k 0 = 0 ↔ lane.getD k false = false) ∧
      (∀ k, DoneVal st'.nr (nl.getD k 0)) := by
  obtain ⟨hinv1, hlen1, hmax1, hlab1, hnb1⟩ := hinv
  have hinit : ∀ k, CellVal st.nr
      ((0 :: lane.map (fun v => if v = true then (1 : Nat) else 0) ++ [0]).getD k 0) := by
    intro k
    cases k with
    | zero => exact Or.inl rfl
    | succ k =>
      have hc : ((0 : Nat) :: lane.map (fun v => if v = true then (1 : Nat) else 0) ++ [0]).getD (k + 1) 0
          = (lane.map (fun v => if v = true then (1 : Nat) else 0) ++ [0]).getD k 0 := rfl
      rw [hc]
      by_cases hk : k < lane.length
      · rw [getD_append_lt _ 0 (by simp [hk])]
        rw [List.getD_eq_getElem _ 0 (by simp [hk])]
        simp only [List.getElem_map]
        by_cases hv : lane[k] = true
        · rw [if_pos hv]; exact Or.inr (Or.inl rfl)
        · rw [if_neg hv]; exact Or.inl rfl
      · by_cases hk2 : k = lane.length
        · have : (lane.map (fun v => if v = true then (1 : Nat) else 0)).length = lane.length := by simp
          rw [hk2, ← this, getD_append_len]
          exact Or.inl rfl
        · rw [getD_of_len_le _ (by simp; omega)]
          exact Or.inl rfl
  simp only [processLane] at hok
  rcases hnp : neighborPass maxVal kd.length up idx dims len st.labels
      ((List.range kd.length).zip kd)
      (0 :: lane.map (fun v => if v = true then (1 : Nat) else 0) ++ [0], st.eq, st.nr, st.neighbors, true)
    with np | e
  · rw [hnp] at hok
    obtain ⟨line1, eq1, nr1, nb1, needs1⟩ := np
    obtain ⟨j1, j2, j3, j4, j5, j6, j7, j8, j9, j10, j11⟩ :=
      neighborPass_spec maxVal kd.length up idx dims len st.labels
        ((List.range kd.length).zip kd)
        (0 :: lane.map (fun v => if v = true then (1 : Nat) else 0) ++ [0]) st.eq st.nr st.neighbors true
        line1 eq1 nr1 nb1 needs1 hinv1 hlen1 hmax1 hinit rfl hlab1 hnb1
        (fun h => absurd h (by simp)) hnp
    have hlen0 : (0 :: lane.map (fun v => if v = true then (1 : Nat) else 0) ++ [0]).length
        = len + 2 := by simp [hlane]
    simp only [bind] at hok
    -- facts about the final line buffer, for both branches of `needs`
    have hmain : ∀ (line2 eq2 : List Nat) (nr2 : Nat),
        EqInv eq2 → eq2.length = nr2 → nr1 ≤ nr2 → nr2 ≤ maxVal →
        line2.length = len + 2 →
        (∀ k, line2.getD k 0 = 0 ↔
          ((0 : Nat) :: lane.map (fun v => if v = true then (1 : Nat) else 0) ++ [0]).getD
            k 0 = 0) →
        (∀ k, CellVal nr2 (line2.getD k 0)) →
        (∀ k, 1 ≤ k → k ≤ len → line2.getD k 0 ≠ 1) →
        st' = ⟨setLane st.labels idx.1 idx.2 ((line2.drop 1).take len), eq2, nr2, nb1⟩ →
        ScanInv maxVal st' ∧ st.nr ≤ st'.nr ∧
        ∃ nl : List Nat,
          st'.labels = setLane st.labels idx.1 idx.2 nl ∧ nl.length = len ∧
          (∀ k, nl.getD k 0 = 0 ↔ lane.getD k false = false) ∧
          (∀ k, DoneVal st'.nr (nl.getD k 0)) := by
      intro line2 eq2 nr2 m1 m2 m3 m4 m5 m6 m7 m8 hst'
      have hnlen : ((line2.drop 1).take len).length = len := dropTake_len line2 len m5
      have hnl_lt : ∀ k, k < len → ((line2.drop 1).take len).getD k 0 = line2.getD (k + 1) 0 :=
        fun k hk => dropTake_getD line2 len k hk
      have hnl_ge : ∀ k, len ≤ k → ((line2.drop 1).take len).getD k 0 = 0 :=
        fun k hk => getD_le_len _ 0 (by omega)
      have hdone : ∀ k, DoneVal nr2 (((line2.drop 1).take len).getD k 0) := by
        intro k
        by_cases hk : k < len
        · rw [hnl_lt k hk]
          have hcv := m7 (k + 1)
          have hne := m8 (k + 1) (by omega) (by omega)
          rcases hcv with h | h | h
          · exact Or.inl h
          · exact absurd h hne
          · exact Or.inr h
        · rw [hnl_ge k (by omega)]
          exact Or.inl rfl
      subst hst'
      refine ⟨⟨m1, m2, m4, ?_, fun k => (j10 k).relax m3⟩, le_trans j3 m3, ?_⟩
      · intro x y k
        rcases vlane_setLane_cases st.labels idx.1 idx.2 x y ((line2.drop 1).take len)
          with h | h
        · rw [h]; exact hdone k
        · rw [h]; exact (hlab1 x y k).relax (le_trans j3 m3)
      · refine ⟨(line2.drop 1).take len, rfl, hnlen, ?_, hdone⟩
        intro k
        by_cases hk : k < len
        · rw [hnl_lt k hk, m6 (k + 1)]
          exact initLine_zero lane k (by omega)
        · rw [hnl_ge k (by omega), getD_le_len lane false (by omega)]
          simp
    by_cases hneeds : needs1 = true
    · rw [hneeds] at hok
      rw [if_pos rfl] at hok
      rcases hll : label_line_with_neighbor maxVal line1 nb1 eq1 [false, false, false] up
          true nr1 len with st2 | e2
      · rw [hll] at hok
        obtain ⟨line2, eq2, nr2⟩ := st2
        obtain ⟨m1, m2, m3, m4, m5, m6, m7, m8, m9, m10⟩ :=
          label_line_spec maxVal line1 nb1 eq1 [false, false, false] up true nr1 len
            line2 eq2 nr2 j1 j2 j4 j8 j6 j10 hll
        simp only [bind, pure] at hok
        have hst' := (LRes.ok.inj hok).symm
        exact hmain line2 eq2 nr2 m1 m2 m3 m4 (by rw [m5, j5, hlen0])
          (fun k => (m7 k).trans (j7 k)) m8 (fun k h1 h2 => m9 rfl k h1 h2) hst'
      · rw [hll] at hok
        exact absurd hok (by simp [bind])
    · have hneeds' : needs1 = false := by
        rcases needs1 with _ | _
        · rfl
        · exact absurd rfl hneeds
      rw [hneeds'] at hok
      rw [if_neg (by simp)] at hok
      simp only [bind, pure] at hok
      have hst' := (LRes.ok.inj hok).symm
      exact hmain line1 eq1 nr1 j1 j2 (le_refl _) j4 (by rw [j5, hlen0])
        j7 j8 (fun k h1 h2 => j11 hneeds' k h1 h2) hst'
  · rw [hnp] at hok
    exact absurd hok (by simp)

theorem scanFold_spec (maxVal len : Nat) (kd : List (List Bool × Int × Int)) (up : Bool)
    (dims : Int × Int) (V : Vol3 Bool) (w h : Nat) (hwf : wf3 V w h len) :
    ∀ (ps : List (Nat × Nat)) (st stF : ScanState),
      ps.Nodup →
      (∀ p ∈ ps, p.1 < w ∧ p.2 < h) →
      ScanInv maxVal st →
      wf3 st.labels w h len →
      (∀ x y, x < w → y < h → (x, y) ∉ ps →
        ∀ k, (vlane st.labels x y).getD k 0 = 0 ↔ (vlane V x y).getD k false = false) →
      ps.foldlM (fun st p => processLane maxVal len kd up dims st p (vlane V p.1 p.2)) st
        = .ok stF →
      ScanInv maxVal stF ∧ wf3 stF.labels w h len ∧ st.nr ≤ stF.nr ∧
      (∀ x y, x < w → y < h →
        ∀ k, (vlane stF.labels x y).getD k 0 = 0 ↔ (vlane V x y).getD k false = false) := by
  intro ps
  induction ps with
  | nil =>
    intro st stF hnd hrange hscan hwfl hpat hok
    simp only [List.foldlM] at hok
    have h5 := LRes.ok.inj hok
    subst h5
    exact ⟨hscan, hwfl, le_refl _, fun x y hx hy => hpat x y hx hy (by simp)⟩
  | cons p rest ih =>
    intro st stF hnd hrange hscan hwfl hpat hok
    simp only [List.foldlM] at hok
    rcases hpl : processLane maxVal len kd up dims st p (vlane V p.1 p.2) with st1 | e
    · rw [hpl] at hok
      simp only [bind] at hok
      have hlane : (vlane V p.1 p.2).length = len := by
        obtain ⟨hw, hrows⟩ := hwf
        have hp1 : p.1 < w := (hrange p (List.mem_cons_self p rest)).1
        have hp2 : p.2 < h := (hrange p (List.mem_cons_self p rest)).2
        have hrow : V.getD p.1 [] ∈ V := getD_mem' V p.1 [] (by omega)
        obtain ⟨hrl, hlanes⟩ := hrows _ hrow
        exact hlanes _ (getD_mem' _ p.2 [] (by omega))
      obtain ⟨s1, s2, nl, hnl1, hnl2, hnl3, hnl4⟩ :=
        processLane_spec maxVal len kd up dims st p (vlane V p.1 p.2) st1 hscan hlane hpl
      have hp1 : p.1 < w := (hrange p (List.mem_cons_self p rest)).1
      have hp2 : p.2 < h := (hrange p (List.mem_cons_self p rest)).2
      have hwfl1 : wf3 st1.labels w h len := by
        rw [hnl1]
        exact wf3_setLane hwfl nl hnl2 hp1 hp2
      obtain ⟨i1, i2, i3, i4⟩ := ih st1 stF (List.Nodup.of_cons hnd)
        (fun q hq => hrange q (List.mem_cons_of_mem p hq)) s1 hwfl1
        (by
          intro x y hx hy hnotin k
          by_cases hxy : (x, y) = p
          · have hxx : p.1 = x := by rw [← hxy]
            have hyy : p.2 = y := by rw [← hxy]
            subst hxx; subst hyy
            rw [hnl1]
            rw [vlane_setLane_self st.labels nl (by rw [hwfl.1]; exact hx)
              (by
                have hrow : st.labels.getD p.1 [] ∈ st.labels :=
                  getD_mem' st.labels p.1 [] (by rw [hwfl.1]; exact hx)
                rw [(hwfl.2 _ hrow).1]
                exact hy)]
            exact hnl3 k
          · rw [hnl1]
            rw [vlane_setLane_other st.labels nl (by
              by_contra hc
              push_neg at hc
              exact hxy (by rw [← hc.1, ← hc.2]))]
            exact hpat x y hx hy (by
              intro hmem
              rcases List.mem_cons.mp hmem with hm | hm
              · exact hxy hm
              · exact hnotin hm) k)
        hok
      exact ⟨i1, i2, le_trans s2 i3, i4⟩
    · rw [hpl] at hok
      simp only [bind] at hok
      exact absurd hok (by simp)

/-!
## Compaction of the equivalence table
-/

theorem findRootFuel_congr (eq : List Nat)
    (hdown : ∀ i, i < eq.length → eq.getD i 0 ≤ i) :
    ∀ a, a < eq.length → ∀ f1 f2, a ≤ f1 → a ≤ f2 →
      findRootFuel eq f1 a = findRootFuel eq f2 a := by
  intro a
  induction a using Nat.strong_induction_on with
  | _ a iha =>
    intro ha f1 f2 h1 h2
    by_cases hfix : eq.getD a 0 = a
    · rw [findRootFuel_stable eq a hfix, findRootFuel_stable eq a hfix]
    · have hlt : eq.getD a 0 < a := lt_of_le_of_ne (hdown a ha) hfix
      obtain ⟨g1, rfl⟩ : ∃ g, f1 = g + 1 := ⟨f1 - 1, by omega⟩
      obtain ⟨g2, rfl⟩ : ∃ g, f2 = g + 1 := ⟨f2 - 1, by omega⟩
      have hu1 : findRootFuel eq (g1 + 1) a = findRootFuel eq g1 (eq.getD a 0) := by
        conv_lhs => rw [findRootFuel]
        rw [if_neg hfix]
      have hu2 : findRootFuel eq (g2 + 1) a = findRootFuel eq g2 (eq.getD a 0) := by
        conv_lhs => rw [findRootFuel]
        rw [if_neg hfix]
      rw [hu1, hu2]
      exact iha (eq.getD a 0) hlt (lt_trans hlt ha) g1 g2 (by omega) (by omega)

theorem find_root_step (eq : List Nat)
    (hdown : ∀ i, i < eq.length → eq.getD i 0 ≤ i)
    (i : Nat) (hi : i < eq.length) (hne : eq.getD i 0 ≠ i) :
    find_root eq i = find_root eq (eq.getD i 0) := by
  have hlt : eq.getD i 0 < i := lt_of_le_of_ne (hdown i hi) hne
  have h1 : i ≥ 1 := by omega
  obtain ⟨g, hg⟩ : ∃ g, i = g + 1 := ⟨i - 1, by omega⟩
  unfold find_root
  conv_lhs => rw [hg, findRootFuel]
  rw [← hg, if_neg hne]
  exact findRootFuel_congr eq hdown (eq.getD i 0) (lt_trans hlt hi) g (eq.getD i 0)
    (by omega) (le_refl _)

/-- Number of roots of the table among the labels `[2, m)`. -/
def rootsBelow (eq : List Nat) (m : Nat) : Nat :=
  ((List.range' 2 (m - 2)).filter fun j => eq.getD j 0 == j).length

/-- The dense output id that compaction assigns to the root `r`: the number of
roots `≤ r` (so roots receive `1, 2, …` in increasing order). -/
def denseRank (eq : List Nat) (r : Nat) : Nat := rootsBelow eq (r + 1)

theorem rootsBelow_le_two (eq : List Nat) {m : Nat} (hm : m ≤ 2) :
    rootsBelow eq m = 0 := by
  unfold rootsBelow
  have h0 : m - 2 = 0 := by omega
  rw [h0]
  rfl

theorem rootsBelow_succ (eq : List Nat) (m : Nat) (hm : 2 ≤ m) :
    rootsBelow eq (m + 1) =
      rootsBelow eq m + (if eq.getD m 0 = m then 1 else 0) := by
  unfold rootsBelow
  have hr : List.range' 2 (m + 1 - 2) = List.range' 2 (m - 2) ++ [m] := by
    have h1 : m + 1 - 2 = (m - 2) + 1 := by omega
    rw [h1, List.range'_1_concat]
    congr 1
    simp
    omega
  rw [hr, List.filter_append, List.length_append]
  congr 1
  by_cases hroot : eq.getD m 0 = m
  · rw [if_pos hroot]
    have hb : (eq.getD m 0 == m) = true := beq_iff_eq.mpr hroot
    rw [List.filter_cons]
    simp only [hb]
    rfl
  · rw [if_neg hroot]
    have hb : (eq.getD m 0 == m) = false := by
      simp only [beq_eq_false_iff_ne]
      exact hroot
    rw [List.filter_cons]
    simp only [hb]
    rfl

theorem rootsBelow_mono (eq : List Nat) : ∀ m1 m2, m1 ≤ m2 →
    rootsBelow eq m1 ≤ rootsBelow eq m2 := by
  intro m1 m2
  induction m2 with
  | zero =>
    intro h
    have h1 : m1 = 0 := by omega
    rw [h1]
  | succ m2 ih =>
    intro h
    by_cases hlt : m1 ≤ m2
    · by_cases hm2 : 2 ≤ m2
      · rw [rootsBelow_succ eq m2 hm2]
        have := ih hlt
        omega
      · have he1 : rootsBelow eq m1 = 0 := rootsBelow_le_two eq (by omega)
        omega
    · have h2 : m1 = m2 + 1 := by omega
      rw [h2]

/-- When there is at least one root below `m`, some root below `m` has
exactly that dense rank. -/
theorem exists_root_rank (eq : List Nat) : ∀ m, 1 ≤ rootsBelow eq m →
    ∃ j, 2 ≤ j ∧ j + 1 ≤ m ∧ eq.getD j 0 = j ∧ denseRank eq j = rootsBelow eq m := by
  intro m
  induction m with
  | zero =>
    intro h
    rw [rootsBelow_le_two eq (by omega)] at h
    omega
  | succ m ih =>
    intro h
    by_cases hm : 2 ≤ m
    · rw [rootsBelow_succ eq m hm] at h ⊢
      by_cases hroot : eq.getD m 0 = m
      · refine ⟨m, hm, by omega, hroot, ?_⟩
        unfold denseRank
        rw [rootsBelow_succ eq m hm, if_pos hroot]
      · rw [if_neg hroot] at h ⊢
        obtain ⟨j, hj1, hj2, hj3, hj4⟩ := ih (by omega)
        exact ⟨j, hj1, by omega, hj3, by rw [hj4]; omega⟩
    · rw [rootsBelow_le_two eq (by omega)] at h
      omega

theorem le_foldl_max (l : List Nat) : ∀ (a v : Nat), v ∈ l ∨ v = a →
    v ≤ l.foldl max a := by
  induction l with
  | nil =>
    intro a v h
    rcases h with h | h
    · exact absurd h (by simp)
    · simp [h, List.foldl]
  | cons x xs ih =>
    intro a v h
    simp only [List.foldl_cons]
    have hbase : max a x ≤ xs.foldl max (max a x) := ih (max a x) (max a x) (Or.inr rfl)
    rcases h with h | h
    · rcases List.mem_cons.mp h with h' | h'
      · subst h'
        exact le_trans (le_max_right a v) hbase
      · exact ih (max a x) v (Or.inl h')
    · subst h
      exact le_trans (le_max_left v x) hbase

theorem foldl_max_le (l : List Nat) : ∀ (a R : Nat), a ≤ R → (∀ v ∈ l, v ≤ R) →
    l.foldl max a ≤ R := by
  induction l with
  | nil => intro a R ha _; simpa [List.foldl] using ha
  | cons x xs ih =>
    intro a R ha h
    simp only [List.foldl_cons]
    exact ih (max a x) R (max_le ha (h x (List.mem_cons_self x xs)))
      (fun v hv => h v (List.mem_cons_of_mem x hv))

theorem compactFold_spec (eq : List Nat) (hinv : EqInv eq) :
    ∀ (n i : Nat) (e : List Nat) (dest : Nat),
      2 ≤ i → i + n ≤ eq.length →
      e.length = eq.length →
      (∀ j, j < 2 → e.getD j 0 = eq.getD j 0) →
      (∀ j, 2 ≤ j → j < i → e.getD j 0 = denseRank eq (find_root eq j)) →
      (∀ j, i ≤ j → e.getD j 0 = eq.getD j 0) →
      dest = 1 + rootsBelow eq i →
      ((List.range' i n).foldl
        (fun p j => if p.1.getD j 0 = j then (p.1.set j p.2, p.2 + 1)
          else (p.1.set j (p.1.getD (p.1.getD j 0) 0), p.2)) (e, dest)).1.length
        = eq.length ∧
      (∀ j, j < 2 → ((List.range' i n).foldl
        (fun p j => if p.1.getD j 0 = j then (p.1.set j p.2, p.2 + 1)
          else (p.1.set j (p.1.getD (p.1.getD j 0) 0), p.2)) (e, dest)).1.getD j 0
          = eq.getD j 0) ∧
      (∀ j, 2 ≤ j → j < i + n → ((List.range' i n).foldl
        (fun p j => if p.1.getD j 0 = j then (p.1.set j p.2, p.2 + 1)
          else (p.1.set j (p.1.getD (p.1.getD j 0) 0), p.2)) (e, dest)).1.getD j 0
          = denseRank eq (find_root eq j)) ∧
      (∀ j, i + n ≤ j → ((List.range' i n).foldl
        (fun p j => if p.1.getD j 0 = j then (p.1.set j p.2, p.2 + 1)
          else (p.1.set j (p.1.getD (p.1.getD j 0) 0), p.2)) (e, dest)).1.getD j 0
          = eq.getD j 0) ∧
      ((List.range' i n).foldl
        (fun p j => if p.1.getD j 0 = j then (p.1.set j p.2, p.2 + 1)
          else (p.1.set j (p.1.getD (p.1.getD j 0) 0), p.2)) (e, dest)).2
        = 1 + rootsBelow eq (i + n) := by
  obtain ⟨hlen2, h1fix, hdown, hlow⟩ := hinv
  intro n
  induction n with
  | zero =>
    intro i e dest hi2 hin hel hju hpr hun hdest
    simp only [List.range', List.foldl_nil]
    exact ⟨hel, hju, fun j hj1 hj2 => hpr j hj1 (by omega), hun, by rw [Nat.add_zero]; exact hdest⟩
  | succ n ih =>
    intro i e dest hi2 hin hel hju hpr hun hdest
    have hr : List.range' i (n + 1) = i :: List.range' (i + 1) n := by simp [List.range']
    rw [hr, List.foldl_cons]
    have hilt : i < eq.length := by omega
    have hei : e.getD i 0 = eq.getD i 0 := hun i (le_refl i)
    by_cases hroot : eq.getD i 0 = i
    · rw [if_pos (by rw [hei]; exact hroot)]
      have hstep := ih (i + 1) (e.set i dest) (dest + 1) (by omega) (by omega)
        (by simp [hel])
        (fun j hj => by
          rw [getD_set_ne e dest (by omega)]
          exact hju j hj)
        (fun j hj1 hj2 => by
          by_cases hji : j = i
          · subst hji
            rw [getD_set_self e j dest (by omega)]
            rw [find_root]
            rw [findRootFuel_stable eq j hroot]
            unfold denseRank
            rw [rootsBelow_succ eq j hi2, if_pos hroot, hdest]
            omega
          · rw [getD_set_ne e dest (fun h => hji h.symm)]
            exact hpr j hj1 (by omega))
        (fun j hj => by
          rw [getD_set_ne e dest (by omega)]
          exact hun j (by omega))
        (by rw [hdest, rootsBelow_succ eq i hi2, if_pos hroot]; omega)
      have hadd : i + 1 + n = i + (n + 1) := by omega
      rw [hadd] at hstep
      exact hstep
    · rw [if_neg (by rw [hei]; exact hroot)]
      have ht2 : 2 ≤ eq.getD i 0 := hlow i hi2 hilt
      have htlt : eq.getD i 0 < i := lt_of_le_of_ne (hdown i hilt) hroot
      have hw : e.getD (e.getD i 0) 0 = denseRank eq (find_root eq i) := by
        rw [hei]
        rw [hpr (eq.getD i 0) ht2 htlt]
        rw [find_root_step eq hdown i hilt hroot]
      have hstep := ih (i + 1) (e.set i (e.getD (e.getD i 0) 0)) dest (by omega) (by omega)
        (by simp [hel])
        (fun j hj => by
          rw [getD_set_ne e _ (by omega)]
          exact hju j hj)
        (fun j hj1 hj2 => by
          by_cases hji : j = i
          · subst hji
            rw [getD_set_self e j _ (by omega)]
            exact hw
          · rw [getD_set_ne e _ (fun h => hji h.symm)]
            exact hpr j hj1 (by omega))
        (fun j hj => by
          rw [getD_set_ne e _ (by omega)]
          exact hun j (by omega))
        (by rw [hdest, rootsBelow_succ eq i hi2, if_neg hroot]; omega)
      have hadd : i + 1 + n = i + (n + 1) := by omega
      rw [hadd] at hstep
      exact hstep

theorem compact_nr2 (eq : List Nat) : compact_equivalences eq 2 = (eq, 0) := by
  simp [compact_equivalences, List.range']

theorem compact_spec (eq : List Nat) (hinv : EqInv eq) (nr : Nat) (hlen : eq.length = nr)
    (hnr : 2 < nr) :
    (compact_equivalences eq nr).1.length = nr ∧
    (compact_equivalences eq nr).1.getD 0 0 = 0 ∧
    (compact_equivalences eq nr).1.getD 1 0 = 1 ∧
    (∀ j, 2 ≤ j → j < nr →
      (compact_equivalences eq nr).1.getD j 0 = denseRank eq (find_root eq j)) ∧
    (compact_equivalences eq nr).2 = rootsBelow eq nr ∧
    (∀ j, 2 ≤ j → j < nr → 1 ≤ (compact_equivalences eq nr).1.getD j 0 ∧
      (compact_equivalences eq nr).1.getD j 0 ≤ rootsBelow eq nr) := by
  obtain ⟨c1, c2, c3, c4, c5⟩ := compactFold_spec eq hinv (nr - 2) 2 eq 1 (le_refl 2)
    (by omega) rfl (fun j hj => rfl) (fun j hj1 hj2 => by omega) (fun j hj => rfl)
    (by rw [rootsBelow_le_two eq (le_refl 2)])
  have h2n : 2 + (nr - 2) = nr := by omega
  rw [h2n] at c3 c4 c5
  have hno : ¬ (nr = 2) := by omega
  have hceq : compact_equivalences eq nr =
      (((List.range' 2 (nr - 2)).foldl
        (fun p j => if p.1.getD j 0 = j then (p.1.set j p.2, p.2 + 1)
          else (p.1.set j (p.1.getD (p.1.getD j 0) 0), p.2)) (eq, 1)).1,
       ((List.range' 2 (nr - 2)).foldl
        (fun p j => if p.1.getD j 0 = j then (p.1.set j p.2, p.2 + 1)
          else (p.1.set j (p.1.getD (p.1.getD j 0) 0), p.2)) (eq, 1)).1.foldl max 0) := by
    unfold compact_equivalences
    rw [if_neg hno, if_neg hno]
  obtain ⟨hlen2, h1fix, hdown, hlow⟩ := hinv
  -- label 2 is always its own root, so there is at least one root
  have hroot2 : eq.getD 2 0 = 2 := by
    have h1 := hdown 2 (by omega)
    have h2 := hlow 2 (le_refl 2) (by omega)
    omega
  have hR1 : 1 ≤ rootsBelow eq nr := by
    have h3 : rootsBelow eq (2 + 1) = 1 := by
      rw [rootsBelow_succ eq 2 (le_refl 2), rootsBelow_le_two eq (le_refl 2), if_pos hroot2]
    have := rootsBelow_mono eq (2 + 1) nr (by omega)
    omega
  -- every entry of the compacted table is at most the number of roots
  have hub : ∀ j, j < nr → (((List.range' 2 (nr - 2)).foldl
      (fun p j => if p.1.getD j 0 = j then (p.1.set j p.2, p.2 + 1)
        else (p.1.set j (p.1.getD (p.1.getD j 0) 0), p.2)) (eq, 1)).1.getD j 0)
        ≤ rootsBelow eq nr := by
    intro j hj
    by_cases hj2 : j < 2
    · rw [c2 j hj2]
      interval_cases j
      · rw [Nat.le_zero.mp (hdown 0 (by omega))]
        omega
      · rw [h1fix]
        exact hR1
    · rw [c3 j (by omega) hj]
      obtain ⟨hfix, hle, hlt⟩ := find_root_spec eq ⟨hlen2, h1fix, hdown, hlow⟩ j
        (by omega)
      unfold denseRank
      have := rootsBelow_mono eq (find_root eq j + 1) nr (by omega)
      exact this
  -- some entry reaches the number of roots
  obtain ⟨j0, hj01, hj02, hj03, hj04⟩ := exists_root_rank eq nr hR1
  have hj0v : (((List.range' 2 (nr - 2)).foldl
      (fun p j => if p.1.getD j 0 = j then (p.1.set j p.2, p.2 + 1)
        else (p.1.set j (p.1.getD (p.1.getD j 0) 0), p.2)) (eq, 1)).1.getD j0 0)
        = rootsBelow eq nr := by
    rw [c3 j0 hj01 (by omega), find_root, findRootFuel_stable eq j0 hj03, hj04]
  have hmax : (((List.range' 2 (nr - 2)).foldl
      (fun p j => if p.1.getD j 0 = j then (p.1.set j p.2, p.2 + 1)
        else (p.1.set j (p.1.getD (p.1.getD j 0) 0), p.2)) (eq, 1)).1.foldl max 0)
        = rootsBelow eq nr := by
    apply le_antisymm
    · apply foldl_max_le _ 0 _ (by omega)
      intro v hv
      rw [List.mem_iff_getElem] at hv
      obtain ⟨k, hk, hkv⟩ := hv
      have hkd : (((List.range' 2 (nr - 2)).foldl
          (fun p j => if p.1.getD j 0 = j then (p.1.set j p.2, p.2 + 1)
            else (p.1.set j (p.1.getD (p.1.getD j 0) 0), p.2)) (eq, 1)).1.getD k 0) = v := by
        rw [List.getD_eq_getElem _ 0 hk, hkv]
      rw [← hkd]
      exact hub k (by rw [← hlen, ← c1]; exact hk)
    · rw [← hj0v]
      apply le_foldl_max
      left
      exact getD_mem' _ j0 0 (by rw [c1, hlen]; omega)
  rw [hceq]
  refine ⟨by rw [c1, hlen], ?_, ?_, c3, hmax, ?_⟩
  · rw [c2 0 (by omega)]
    exact Nat.le_zero.mp (hdown 0 (by omega))
  · rw [c2 1 (by omega)]
    exact h1fix
  · intro j hj1 hj2
    constructor
    · rw [c3 j hj1 hj2]
      obtain ⟨hfix, hle, hlt⟩ := find_root_spec eq ⟨hlen2, h1fix, hdown, hlow⟩ j (by omega)
      have hfr2 : 2 ≤ find_root eq j := by
        obtain ⟨P, hP⟩ := exists_pathTo eq hdown j (by omega)
        exact pathTo_mem_two_le hdown hlow hP (by omega) hj1 _
          (pathTo_find_root hdown hP (by omega)).1
      unfold denseRank
      rw [rootsBelow_succ eq (find_root eq j) hfr2, if_pos hfix]
      omega
    · exact hub j hj2

/-- C7: `compact_equivalences` walks labels `2..next_region` in increasing
order; a label that is its own root receives the next dense output id — one
plus the number of roots strictly below it, so ids start at 1 and increase
with the walk; a non-root label is rewritten to the dense id already assigned
to its root; the returned feature count equals the number of roots in
`[2, next_region)`, i.e. the number of dense ids assigned; in the special
case `next_region = 2` the table is returned unchanged with feature count 0. -/
theorem C7_compact_characterization (eq : List Nat) (nr : Nat)
    (hinv : EqInv eq) (hlen : eq.length = nr) :
    (compact_equivalences eq 2 = (eq, 0)) ∧
    (2 < nr →
      (compact_equivalences eq nr).1.length = nr ∧
      (compact_equivalences eq nr).2 = rootsBelow eq nr ∧
      (∀ j, 2 ≤ j → j < nr → eq.getD j 0 = j →
        (compact_equivalences eq nr).1.getD j 0 = 1 + rootsBelow eq j) ∧
      (∀ j, 2 ≤ j → j < nr → eq.getD j 0 ≠ j →
        (compact_equivalences eq nr).1.getD j 0 =
          (compact_equivalences eq nr).1.getD (find_root eq j) 0)) := by
  refine ⟨compact_nr2 eq, fun hnr => ?_⟩
  obtain ⟨c1, c2, c3, c4, c5, c6⟩ := compact_spec eq hinv nr hlen hnr
  refine ⟨c1, c5, ?_, ?_⟩
  · intro j hj1 hj2 hroot
    rw [c4 j hj1 hj2, find_root, findRootFuel_stable eq j hroot, denseRank,
      rootsBelow_succ eq j hj1, if_pos hroot]
    omega
  · intro j hj1 hj2 _
    obtain ⟨hfix, hle, _⟩ := find_root_spec eq hinv j (by omega)
    have hfr2 : 2 ≤ find_root eq j := by
      obtain ⟨P, hP⟩ := exists_pathTo eq hinv.2.2.1 j (by rw [hlen]; omega)
      exact pathTo_mem_two_le hinv.2.2.1 hinv.2.2.2 hP (by rw [hlen]; omega) hj1 _
        (pathTo_find_root hinv.2.2.1 hP (by rw [hlen]; omega)).1
    have hself : find_root eq (find_root eq j) = find_root eq j :=
      findRootFuel_stable eq (find_root eq j) hfix (find_root eq j)
    rw [c4 j hj1 hj2, c4 (find_root eq j) hfr2 (by omega), hself]

theorem C7_compact_characterization_witness :
    EqInv [0, 1, 2, 2, 4] ∧
    ((compact_equivalences [0, 1, 2, 2, 4] 2 = ([0, 1, 2, 2, 4], 0)) ∧
     (2 < 5 →
      (compact_equivalences [0, 1, 2, 2, 4] 5).1.length = 5 ∧
      (compact_equivalences [0, 1, 2, 2, 4] 5).2 = rootsBelow [0, 1, 2, 2, 4] 5 ∧
      (∀ j, 2 ≤ j → j < 5 → List.getD [0, 1, 2, 2, 4] j 0 = j →
        (compact_equivalences [0, 1, 2, 2, 4] 5).1.getD j 0 =
          1 + rootsBelow [0, 1, 2, 2, 4] j) ∧
      (∀ j, 2 ≤ j → j < 5 → List.getD [0, 1, 2, 2, 4] j 0 ≠ j →
        (compact_equivalences [0, 1, 2, 2, 4] 5).1.getD j 0 =
          (compact_equivalences [0, 1, 2, 2, 4] 5).1.getD
            (find_root [0, 1, 2, 2, 4] j) 0))) :=
  ⟨by decide, C7_compact_characterization [0, 1, 2, 2, 4] 5 (by decide) rfl⟩

/-!
## The label-level background correspondence
-/

theorem getD_replicate_cases {α : Type} (n i : Nat) (a d : α) :
    (List.replicate n a).getD i d = a ∨ (List.replicate n a).getD i d = d := by
  by_cases h : i < n
  · left
    rw [List.getD_eq_getElem _ d (by simpa using h)]
    simp
  · right
    exact getD_le_len _ d (by simpa using Nat.le_of_not_lt h)

theorem vlane_replicate_getD (w h len x y k : Nat) :
    (vlane (List.replicate w (List.replicate h (List.replicate len (0 : Nat)))) x y).getD
      k 0 = 0 := by
  unfold vlane
  rcases getD_replicate_cases w x (List.replicate h (List.replicate len (0 : Nat))) []
    with h1 | h1 <;> rw [h1]
  · rcases getD_replicate_cases h y (List.replicate len (0 : Nat)) [] with h2 | h2 <;> rw [h2]
    · rcases getD_replicate_cases len k (0 : Nat) 0 with h3 | h3 <;> exact h3
    · exact getD_le_len _ 0 (by simp)
  · rw [getD_le_len ([] : List (List Nat)) [] (by simp)]
    exact getD_le_len _ 0 (by simp)

theorem getD_map_lt {α β : Type} (l : List α) (f : α → β) (i : Nat) (d : β) (d' : α)
    (h : i < l.length) : (l.map f).getD i d = f (l.getD i d') := by
  rw [List.getD_eq_getElem _ d (by simpa using h), List.getD_eq_getElem _ d' h,
    List.getElem_map]

theorem vlane_map_getD (L : Vol3 Nat) (g : Nat → Nat) (x y z : Nat)
    (hx : x < L.length) (hy : y < (L.getD x []).length)
    (hz : z < ((L.getD x []).getD y []).length) :
    (vlane (L.map fun p => p.map fun l => l.map g) x y).getD z 0 =
      g ((vlane L x y).getD z 0) := by
  unfold vlane
  rw [getD_map_lt L _ x [] [] hx, getD_map_lt _ _ y [] [] (by simpa using hy),
    getD_map_lt _ g z 0 0 (by simpa using hz)]

theorem compact_getD_zero_iff (eq : List Nat) (nr : Nat) (hinv : EqInv eq)
    (hlen : eq.length = nr) (v : Nat) (hv : DoneVal nr v) :
    (compact_equivalences eq nr).1.getD v 0 = 0 ↔ v = 0 := by
  rcases hv with rfl | ⟨hv2, hvlt⟩
  · refine ⟨fun _ => rfl, fun _ => ?_⟩
    by_cases hnr : nr = 2
    · subst hnr
      rw [compact_nr2]
      exact eqInv_zero hinv
    · have hnr2 : 2 ≤ nr := hlen ▸ hinv.1
      exact (compact_spec eq hinv nr hlen (by omega)).2.1
  · have hnr3 : 2 < nr := by omega
    obtain ⟨c1, c2, c3, c4, c5, c6⟩ := compact_spec eq hinv nr hlen hnr3
    have := (c6 v hv2 hvlt).1
    omega

/-- C2: on a successful run of `label`, the output volume holds 0 at an
in-range voxel exactly when the input volume is `false` there: background
voxels and only background voxels map to label 0. -/
theorem C2_zero_iff_background (V K : Vol3 Bool) (maxVal w h d : Nat)
    (hwf : wf3 V w h d) (hmax : 2 ≤ maxVal) (out : Vol3 Nat) (nb : Nat)
    (hok : label V K maxVal = .ok (out, nb)) :
    ∀ x y z, x < w → y < h → z < d →
      (vget 0 out x y z = 0 ↔ vget false V x y z = false) := by
  intro x y z hx hy hz
  have hVlen : V.length = w := hwf.1
  have hrow0 : V.getD 0 [] ∈ V := getD_mem' V 0 [] (by omega)
  have hh' : (V.getD 0 []).length = h := (hwf.2 _ hrow0).1
  have hlane00 : vlane V 0 0 ∈ V.getD 0 [] := getD_mem' _ 0 [] (by omega)
  have hlen_d : (vlane V 0 0).length = d := (hwf.2 _ hrow0).2 _ hlane00
  by_cases hs : shape3 K = true
  case neg =>
    unfold label at hok
    rw [if_pos hs] at hok
    exact LRes.noConfusion hok
  by_cases hp : pointSymmetric K = true
  case neg =>
    unfold label at hok
    rw [if_neg (not_not_intro hs), if_pos hp] at hok
    exact LRes.noConfusion hok
  have hlab : label V K maxVal =
      (match ((List.range V.length).flatMap fun x => (List.range (V.getD 0 []).length).map
          fun y => (x, y)).foldlM
          (fun st p => processLane maxVal (vlane V 0 0).length (kernel_data K)
            (use_previous_of K) ((V.length : Int), ((V.getD 0 []).length : Int)) st p
            (vlane V p.1 p.2))
          ⟨List.replicate V.length (List.replicate (V.getD 0 []).length
            (List.replicate (vlane V 0 0).length 0)), [0, 1], 2,
           List.replicate ((vlane V 0 0).length + 2) 0⟩ with
        | .ok final => .ok (final.labels.map fun p => p.map fun l => l.map fun v =>
            (compact_equivalences final.eq final.nr).1.getD v 0,
            (compact_equivalences final.eq final.nr).2)
        | .err e => .err e) := by
    unfold label
    rw [if_neg (not_not_intro hs), if_neg (not_not_intro hp)]
  rw [hlab] at hok
  split at hok
  next final hfold =>
    have h2 := LRes.ok.inj hok
    rw [Prod.mk.injEq] at h2
    obtain ⟨hout, hnb⟩ := h2
    have hnd : ((List.range V.length).flatMap
        fun x => (List.range (V.getD 0 []).length).map fun y => (x, y)).Nodup :=
      List.Nodup.product (List.nodup_range _) (List.nodup_range _)
    have hrange : ∀ p ∈ ((List.range V.length).flatMap
        fun x => (List.range (V.getD 0 []).length).map fun y => (x, y)),
        p.1 < w ∧ p.2 < h := by
      intro p hpmem
      simp only [List.mem_flatMap, List.mem_map, List.mem_range] at hpmem
      obtain ⟨a, ha, b, hb, rfl⟩ := hpmem
      exact ⟨by rw [← hVlen]; exact ha, by rw [← hh']; exact hb⟩
    have hinit : ScanInv maxVal
        ⟨List.replicate V.length (List.replicate (V.getD 0 []).length
          (List.replicate (vlane V 0 0).length 0)), [0, 1], 2,
         List.replicate ((vlane V 0 0).length + 2) 0⟩ := by
      refine ⟨show EqInv [0, 1] from by decide, rfl, hmax, ?_, ?_⟩
      · intro x' y' k
        exact Or.inl (vlane_replicate_getD _ _ _ x' y' k)
      · intro k
        rcases getD_replicate_cases ((vlane V 0 0).length + 2) k (0 : Nat) 0 with hr | hr <;>
          exact Or.inl hr
    have hwfl0 : wf3 (List.replicate V.length (List.replicate (V.getD 0 []).length
        (List.replicate (vlane V 0 0).length (0 : Nat)))) w h (vlane V 0 0).length := by
      refine ⟨by rw [List.length_replicate]; exact hVlen, ?_⟩
      intro p hpmem
      rw [List.eq_of_mem_replicate hpmem]
      refine ⟨by rw [List.length_replicate]; exact hh', ?_⟩
      intro l hl
      rw [List.eq_of_mem_replicate hl]
      exact List.length_replicate _ _
    have hpat : ∀ x' y', x' < w → y' < h →
        (x', y') ∉ ((List.range V.length).flatMap
          fun x => (List.range (V.getD 0 []).length).map fun y => (x, y)) →
        ∀ k, (vlane (List.replicate V.length (List.replicate (V.getD 0 []).length
          (List.replicate (vlane V 0 0).length (0 : Nat)))) x' y').getD k 0 = 0 ↔
          (vlane V x' y').getD k false = false := by
      intro x' y' hx' hy' hnotin k
      exfalso
      apply hnotin
      simp only [List.mem_flatMap, List.mem_map, List.mem_range]
      exact ⟨x', by rw [hVlen]; exact hx', y', by rw [hh']; exact hy', rfl⟩
    obtain ⟨i1, i2, i3, i4⟩ := scanFold_spec maxVal (vlane V 0 0).length (kernel_data K)
      (use_previous_of K) ((V.length : Int), ((V.getD 0 []).length : Int)) V w h
      (by rw [hlen_d]; exact hwf) _ _ final hnd hrange hinit hwfl0 hpat hfold
    have hrowf : final.labels.getD x [] ∈ final.labels :=
      getD_mem' _ x [] (by rw [i2.1]; exact hx)
    have hy2 : y < (final.labels.getD x []).length := by
      rw [(i2.2 _ hrowf).1]; exact hy
    have hlanef : (final.labels.getD x []).getD y [] ∈ final.labels.getD x [] :=
      getD_mem' _ y [] hy2
    have hz2 : z < ((final.labels.getD x []).getD y []).length := by
      rw [(i2.2 _ hrowf).2 _ hlanef, hlen_d]; exact hz
    rw [← hout]
    show (vlane (final.labels.map fun p => p.map fun l => l.map fun v =>
        (compact_equivalences final.eq final.nr).1.getD v 0) x y).getD z 0 = 0 ↔
      (vlane V x y).getD z false = false
    rw [vlane_map_getD final.labels _ x y z (by rw [i2.1]; exact hx) hy2 hz2]
    exact Iff.trans
      (compact_getD_zero_iff final.eq final.nr i1.1 i1.2.1 _ (i1.2.2.2.1 x y z))
      (i4 x y hx hy z)
  next e hfold => exact LRes.noConfusion hok

theorem C2_zero_iff_background_witness :
    wf3 [[[true, false, true]]] 1 1 3 ∧ 2 ≤ 65535 ∧
    label [[[true, false, true]]]
      [[[false, false, false], [false, true, false], [false, false, false]],
       [[false, true, false], [true, true, true], [false, true, false]],
       [[false, false, false], [false, true, false], [false, false, false]]] 65535 =
      .ok ([[[1, 0, 2]]], 2) ∧
    (∀ x y z, x < 1 → y < 1 → z < 3 →
      (vget 0 [[[1, 0, 2]]] x y z = 0 ↔ vget false [[[true, false, true]]] x y z = false)) :=
  ⟨by decide, by decide, by decide,
   C2_zero_iff_background [[[true, false, true]]]
     [[[false, false, false], [false, true, false], [false, false, false]],
      [[false, true, false], [true, true, true], [false, true, false]],
      [[false, false, false], [false, true, false], [false, false, false]]] 65535 1 1 3
     (by decide) (by decide) [[[1, 0, 2]]] 2 (by decide)⟩

/-!
## Histogram and most-frequent-label
-/

theorem foldl_set_length (vs : List Nat) : ∀ c : List Nat,
    (vs.foldl (fun c v => c.set v (c.getD v 0 + 1)) c).length = c.length := by
  induction vs with
  | nil => intro c; rfl
  | cons v vs ih =>
    intro c
    rw [List.foldl_cons, ih, List.length_set]

theorem foldl_set_count (vs : List Nat) : ∀ (c : List Nat) (j : Nat), j < c.length →
    (vs.foldl (fun c v => c.set v (c.getD v 0 + 1)) c).getD j 0 =
      c.getD j 0 + vs.count j := by
  induction vs with
  | nil => intro c j _; simp
  | cons v vs ih =>
    intro c j hj
    rw [List.foldl_cons, ih _ j (by rw [List.length_set]; exact hj)]
    by_cases hv : v = j
    · subst hv
      rw [getD_set_self c v _ hj, List.count_cons_self]
      omega
    · rw [getD_set_ne c _ hv, List.count_cons_of_ne (Ne.symm hv)]

theorem foldl_flatMap_gen {β : Type} (g : List Nat → Nat → List Nat) (f : β → List Nat) :
    ∀ (L : List β) (c : List Nat),
    L.foldl (fun c p => (f p).foldl g c) c = (L.flatMap f).foldl g c := by
  intro L
  induction L with
  | nil => intro c; rfl
  | cons p L ih =>
    intro c
    rw [List.flatMap_cons, List.foldl_append, List.foldl_cons, ih]

theorem label_histogram_flat (L : Vol3 Nat) (nb : Nat) :
    label_histogram L nb = (L.flatMap fun p => p.flatMap id).foldl
      (fun c v => c.set v (c.getD v 0 + 1)) (List.replicate (nb + 1) 0) := by
  unfold label_histogram
  have h2 : (fun (c : List Nat) (p : List (List Nat)) =>
      p.foldl (fun c l => l.foldl (fun c v => c.set v (c.getD v 0 + 1)) c) c) =
      fun c p => ((p.flatMap id).foldl (fun c v => c.set v (c.getD v 0 + 1)) c) := by
    funext c p
    exact foldl_flatMap_gen _ id p c
  rw [h2]
  exact foldl_flatMap_gen _ _ L _

theorem label_histogram_length (L : Vol3 Nat) (nb : Nat) :
    (label_histogram L nb).length = nb + 1 := by
  rw [label_histogram_flat, foldl_set_length]
  simp

theorem label_histogram_getD (L : Vol3 Nat) (nb j : Nat) (hj : j < nb + 1) :
    (label_histogram L nb).getD j 0 = (L.flatMap fun p => p.flatMap id).count j := by
  rw [label_histogram_flat, foldl_set_count _ _ j (by simpa using hj)]
  rcases getD_replicate_cases (nb + 1) j (0 : Nat) 0 with hr | hr <;> rw [hr, Nat.zero_add]

theorem flat_voxels (L : Vol3 Nat) (w h d : Nat) (hwf : wf3 L w h d) (v : Nat) :
    v ∈ (L.flatMap fun p => p.flatMap id) ↔
    ∃ x y z, x < w ∧ y < h ∧ z < d ∧ vget 0 L x y z = v := by
  constructor
  · intro hv
    rw [List.mem_flatMap] at hv
    obtain ⟨p, hp, hv⟩ := hv
    rw [List.mem_flatMap] at hv
    obtain ⟨l, hl, hv⟩ := hv
    simp only [id_eq] at hv
    rw [List.mem_iff_getElem] at hp hl hv
    obtain ⟨x, hx, hpx⟩ := hp
    obtain ⟨y, hy, hly⟩ := hl
    obtain ⟨z, hz, hvz⟩ := hv
    have hxw : x < w := by rw [← hwf.1]; exact hx
    have hpD : L.getD x [] = p := by rw [List.getD_eq_getElem _ [] hx, hpx]
    have hph : p.length = h := (hwf.2 p (hpD ▸ getD_mem' L x [] hx)).1
    have hyh : y < h := by rw [← hph]; exact hy
    have hlD : p.getD y [] = l := by rw [List.getD_eq_getElem _ [] hy, hly]
    have hld : l.length = d :=
      (hwf.2 p (hpD ▸ getD_mem' L x [] hx)).2 l (hlD ▸ getD_mem' p y [] hy)
    have hzd : z < d := by rw [← hld]; exact hz
    refine ⟨x, y, z, hxw, hyh, hzd, ?_⟩
    unfold vget
    rw [hpD, hlD, List.getD_eq_getElem _ 0 hz, hvz]
  · intro hv
    obtain ⟨x, y, z, hx, hy, hz, hval⟩ := hv
    have hxl : x < L.length := by rw [hwf.1]; exact hx
    have hpmem : L.getD x [] ∈ L := getD_mem' L x [] hxl
    have hyl : y < (L.getD x []).length := by rw [(hwf.2 _ hpmem).1]; exact hy
    have hlmem : (L.getD x []).getD y [] ∈ L.getD x [] := getD_mem' _ y [] hyl
    have hzl : z < ((L.getD x []).getD y []).length := by
      rw [(hwf.2 _ hpmem).2 _ hlmem]; exact hz
    rw [List.mem_flatMap]
    refine ⟨L.getD x [], hpmem, ?_⟩
    rw [List.mem_flatMap]
    refine ⟨(L.getD x []).getD y [], hlmem, ?_⟩
    show v ∈ (L.getD x []).getD y []
    rw [← hval]
    unfold vget
    rw [List.getD_eq_getElem _ 0 hzl]
    exact List.getElem_mem hzl

/-- The lexicographic order on `(usize, usize)` underlying Rust's tuple
`Ord::max`. -/
def lexLE (a b : Nat × Nat) : Prop := a.1 < b.1 ∨ (a.1 = b.1 ∧ a.2 ≤ b.2)

instance (a b : Nat × Nat) : Decidable (lexLE a b) := by
  unfold lexLE; infer_instance

theorem lexLE_refl (a : Nat × Nat) : lexLE a a := Or.inr ⟨rfl, le_refl _⟩

theorem lexLE_trans {a b c : Nat × Nat} (h1 : lexLE a b) (h2 : lexLE b c) :
    lexLE a c := by
  unfold lexLE at *
  omega

theorem tupleMax_cases (a b : Nat × Nat) : tupleMax a b = a ∨ tupleMax a b = b := by
  unfold tupleMax
  by_cases h : a.1 < b.1 ∨ (a.1 = b.1 ∧ a.2 ≤ b.2)
  · rw [if_pos h]; exact Or.inr rfl
  · rw [if_neg h]; exact Or.inl rfl

theorem lexLE_tupleMax_left (a b : Nat × Nat) : lexLE a (tupleMax a b) := by
  unfold tupleMax
  by_cases h : a.1 < b.1 ∨ (a.1 = b.1 ∧ a.2 ≤ b.2)
  · rw [if_pos h]; exact h
  · rw [if_neg h]; exact lexLE_refl a

theorem lexLE_tupleMax_right (a b : Nat × Nat) : lexLE b (tupleMax a b) := by
  unfold tupleMax
  by_cases h : a.1 < b.1 ∨ (a.1 = b.1 ∧ a.2 ≤ b.2)
  · rw [if_pos h]; exact lexLE_refl b
  · rw [if_neg h]
    unfold lexLE
    omega

theorem foldl_tupleMax_mem : ∀ (l : List (Nat × Nat)) (a : Nat × Nat),
    l.foldl tupleMax a = a ∨ l.foldl tupleMax a ∈ l := by
  intro l
  induction l with
  | nil => intro a; exact Or.inl rfl
  | cons b l ih =>
    intro a
    rw [List.foldl_cons]
    rcases ih (tupleMax a b) with hm | hm
    · rw [hm]
      rcases tupleMax_cases a b with h2 | h2
      · exact Or.inl h2
      · right
        rw [h2]
        exact List.mem_cons_self b l
    · exact Or.inr (List.mem_cons_of_mem b hm)

theorem foldl_tupleMax_le : ∀ (l : List (Nat × Nat)) (a : Nat × Nat),
    lexLE a (l.foldl tupleMax a) ∧ ∀ x ∈ l, lexLE x (l.foldl tupleMax a) := by
  intro l
  induction l with
  | nil => intro a; exact ⟨lexLE_refl a, by simp⟩
  | cons b l ih =>
    intro a
    rw [List.foldl_cons]
    obtain ⟨h1, h2⟩ := ih (tupleMax a b)
    refine ⟨lexLE_trans (lexLE_tupleMax_left a b) h1, ?_⟩
    intro x hx
    rcases List.mem_cons.mp hx with hx1 | hx2
    · rw [hx1]
      exact lexLE_trans (lexLE_tupleMax_right a b) h1
    · exact h2 x hx2

theorem drop1_getD (l : List Nat) (k : Nat) : (l.drop 1).getD k 0 = l.getD (k + 1) 0 := by
  simp [List.getD, List.getElem?_drop, Nat.add_comm]

theorem mem_enum_swap (l : List Nat) (x : Nat × Nat) :
    x ∈ l.enum.map (fun ia => (ia.2, ia.1)) ↔
    ∃ i, i < l.length ∧ x = (l.getD i 0, i) := by
  rw [List.mem_map]
  constructor
  · intro hx
    obtain ⟨ia, hia, hswap⟩ := hx
    rw [List.mem_iff_getElem] at hia
    obtain ⟨i, hi, hget⟩ := hia
    have hil : i < l.length := by simpa using hi
    rw [List.getElem_enum] at hget
    refine ⟨i, hil, ?_⟩
    rw [← hswap, ← hget]
    rw [List.getD_eq_getElem _ 0 hil]
  · intro hx
    obtain ⟨i, hi, hx⟩ := hx
    refine ⟨(i, l.getD i 0), ?_, by rw [hx]⟩
    rw [List.mem_iff_getElem]
    refine ⟨i, by simpa using hi, ?_⟩
    rw [List.getElem_enum, List.getD_eq_getElem _ 0 hi]

theorem most_frequent_label_spec (L : Vol3 Nat) (nb : Nat) :
    (most_frequent_label L nb = none ↔
      ∀ j, 1 ≤ j → j ≤ nb → (label_histogram L nb).getD j 0 = 0) ∧
    (∀ lab cnt, most_frequent_label L nb = some (lab, cnt) →
      1 ≤ lab ∧ lab ≤ nb ∧ 0 < cnt ∧
      cnt = (label_histogram L nb).getD lab 0 ∧
      (∀ j, 1 ≤ j → j ≤ nb → (label_histogram L nb).getD j 0 ≤ cnt) ∧
      (∀ j, lab < j → j ≤ nb → (label_histogram L nb).getD j 0 < cnt)) := by
  have hlen : (label_histogram L nb).length = nb + 1 := label_histogram_length L nb
  have hdlen : ((label_histogram L nb).drop 1).length = nb := by
    rw [List.length_drop, hlen]
    omega
  have hdef0 : most_frequent_label L nb =
      (if 0 < (((label_histogram L nb).drop 1).enum.foldl
          (fun acc ia => tupleMax acc (ia.2, ia.1)) (0, 0)).1
       then some ((((label_histogram L nb).drop 1).enum.foldl
          (fun acc ia => tupleMax acc (ia.2, ia.1)) (0, 0)).2 + 1,
          (((label_histogram L nb).drop 1).enum.foldl
          (fun acc ia => tupleMax acc (ia.2, ia.1)) (0, 0)).1)
       else none) := rfl
  have hfold : (((label_histogram L nb).drop 1).enum.foldl
      (fun acc ia => tupleMax acc (ia.2, ia.1)) (0, 0)) =
      ((((label_histogram L nb).drop 1).enum.map fun ia => (ia.2, ia.1)).foldl
        tupleMax (0, 0)) := by
    rw [List.foldl_map]
  rw [hfold] at hdef0
  obtain ⟨M, hMdef⟩ : ∃ M, ((((label_histogram L nb).drop 1).enum.map
      fun ia => (ia.2, ia.1)).foldl tupleMax (0, 0)) = M := ⟨_, rfl⟩
  rw [hMdef] at hdef0
  have hm := foldl_tupleMax_mem (((label_histogram L nb).drop 1).enum.map
      fun ia => (ia.2, ia.1)) (0, 0)
  rw [hMdef] at hm
  have hub := (foldl_tupleMax_le (((label_histogram L nb).drop 1).enum.map
      fun ia => (ia.2, ia.1)) (0, 0)).2
  simp only [hMdef] at hub
  have hmem : ∀ x : Nat × Nat, x ∈ (((label_histogram L nb).drop 1).enum.map
      fun ia => (ia.2, ia.1)) ↔
      ∃ i, i < nb ∧ x = ((label_histogram L nb).getD (i + 1) 0, i) := by
    intro x
    rw [mem_enum_swap]
    constructor
    · rintro ⟨i, hi, hx⟩
      rw [hdlen] at hi
      rw [drop1_getD] at hx
      exact ⟨i, hi, hx⟩
    · rintro ⟨i, hi, hx⟩
      refine ⟨i, by rw [hdlen]; exact hi, by rw [drop1_getD]; exact hx⟩
  obtain ⟨mc, mi⟩ := M
  constructor
  · rw [hdef0]
    by_cases hpos : 0 < mc
    · rw [if_pos hpos]
      constructor
      · intro hcontra; exact absurd hcontra (by simp)
      · intro hall
        exfalso
        rcases hm with hm0 | hmS
        · rw [Prod.mk.injEq] at hm0
          omega
        · obtain ⟨i, hi, hx⟩ := (hmem _).mp hmS
          rw [Prod.mk.injEq] at hx
          have hz := hall (i + 1) (by omega) (by omega)
          omega
    · rw [if_neg hpos]
      constructor
      · intro _ j hj1 hj2
        have hmemj : ((label_histogram L nb).getD j 0, j - 1) ∈
            (((label_histogram L nb).drop 1).enum.map fun ia => (ia.2, ia.1)) := by
          refine (hmem _).mpr ⟨j - 1, by omega, ?_⟩
          rw [Nat.sub_add_cancel hj1]
        have hle' : (label_histogram L nb).getD j 0 < mc ∨
            ((label_histogram L nb).getD j 0 = mc ∧ j - 1 ≤ mi) := hub _ hmemj
        omega
      · intro _; rfl
  · intro lab cnt hsome
    rw [hdef0] at hsome
    by_cases hpos : 0 < mc
    · rw [if_pos hpos] at hsome
      have hinj := Option.some.inj hsome
      rw [Prod.mk.injEq] at hinj
      obtain ⟨hlab, hcnt⟩ := hinj
      have hlab' : mi + 1 = lab := hlab
      have hcnt' : mc = cnt := hcnt
      rcases hm with hm0 | hmS
      · rw [Prod.mk.injEq] at hm0
        omega
      · obtain ⟨i, hi, hx⟩ := (hmem _).mp hmS
        rw [Prod.mk.injEq] at hx
        obtain ⟨hx1, hx2⟩ := hx
        refine ⟨by omega, by omega, by omega, ?_, ?_, ?_⟩
        · rw [show lab = i + 1 from by omega, ← hcnt']
          exact hx1
        · intro j hj1 hj2
          have hmemj : ((label_histogram L nb).getD j 0, j - 1) ∈
              (((label_histogram L nb).drop 1).enum.map fun ia => (ia.2, ia.1)) := by
            refine (hmem _).mpr ⟨j - 1, by omega, ?_⟩
            rw [Nat.sub_add_cancel hj1]
          have hle' : (label_histogram L nb).getD j 0 < mc ∨
              ((label_histogram L nb).getD j 0 = mc ∧ j - 1 ≤ mi) := hub _ hmemj
          omega
        · intro j hjlab hj2
          have hmemj : ((label_histogram L nb).getD j 0, j - 1) ∈
              (((label_histogram L nb).drop 1).enum.map fun ia => (ia.2, ia.1)) := by
            refine (hmem _).mpr ⟨j - 1, by omega, ?_⟩
            rw [Nat.sub_add_cancel (by omega)]
          have hle' : (label_histogram L nb).getD j 0 < mc ∨
              ((label_histogram L nb).getD j 0 = mc ∧ j - 1 ≤ mi) := hub _ hmemj
          omega
    · rw [if_neg hpos] at hsome
      exact absurd hsome (by simp)

theorem compact_getD_le (eq : List Nat) (nr : Nat) (hinv : EqInv eq)
    (hlen : eq.length = nr) (v : Nat) (hv : DoneVal nr v) :
    (compact_equivalences eq nr).1.getD v 0 ≤ (compact_equivalences eq nr).2 := by
  rcases hv with rfl | ⟨hv2, hvlt⟩
  · by_cases hnr : nr = 2
    · subst hnr
      rw [compact_nr2]
      rw [eqInv_zero hinv]
    · have hnr2 : 2 ≤ nr := hlen ▸ hinv.1
      obtain ⟨c1, c2, c3, c4, c5, c6⟩ := compact_spec eq hinv nr hlen (by omega)
      rw [c2]
      omega
  · have hnr3 : 2 < nr := by omega
    obtain ⟨c1, c2, c3, c4, c5, c6⟩ := compact_spec eq hinv nr hlen hnr3
    rw [c5]
    exact (c6 v hv2 hvlt).2


theorem label_ok_spec (V K : Vol3 Bool) (maxVal w h d : Nat)
    (hwf : wf3 V w h d) (hmax : 2 ≤ maxVal) (out : Vol3 Nat) (nb : Nat)
    (hok : label V K maxVal = .ok (out, nb)) :
    wf3 out w h d ∧
    ∀ x y z, x < w → y < h → z < d →
      ((vget 0 out x y z = 0 ↔ vget false V x y z = false) ∧ vget 0 out x y z ≤ nb) := by
  have hVlen : V.length = w := hwf.1
  by_cases hs : shape3 K = true
  case neg =>
    unfold label at hok
    rw [if_pos hs] at hok
    exact LRes.noConfusion hok
  by_cases hp : pointSymmetric K = true
  case neg =>
    unfold label at hok
    rw [if_neg (not_not_intro hs), if_pos hp] at hok
    exact LRes.noConfusion hok
  have hlab : label V K maxVal =
      (match ((List.range V.length).flatMap fun x => (List.range (V.getD 0 []).length).map
          fun y => (x, y)).foldlM
          (fun st p => processLane maxVal (vlane V 0 0).length (kernel_data K)
            (use_previous_of K) ((V.length : Int), ((V.getD 0 []).length : Int)) st p
            (vlane V p.1 p.2))
          ⟨List.replicate V.length (List.replicate (V.getD 0 []).length
            (List.replicate (vlane V 0 0).length 0)), [0, 1], 2,
           List.replicate ((vlane V 0 0).length + 2) 0⟩ with
        | .ok final => .ok (final.labels.map fun p => p.map fun l => l.map fun v =>
            (compact_equivalences final.eq final.nr).1.getD v 0,
            (compact_equivalences final.eq final.nr).2)
        | .err e => .err e) := by
    unfold label
    rw [if_neg (not_not_intro hs), if_neg (not_not_intro hp)]
  rw [hlab] at hok
  split at hok
  next final hfold =>
    have h2 := LRes.ok.inj hok
    rw [Prod.mk.injEq] at h2
    obtain ⟨hout, hnb⟩ := h2
    have hnd : ((List.range V.length).flatMap
        fun x => (List.range (V.getD 0 []).length).map fun y => (x, y)).Nodup :=
      List.Nodup.product (List.nodup_range _) (List.nodup_range _)
    have hrange : ∀ p ∈ ((List.range V.length).flatMap
        fun x => (List.range (V.getD 0 []).length).map fun y => (x, y)),
        p.1 < w ∧ p.2 < h := by
      intro p hpmem
      simp only [List.mem_flatMap, List.mem_map, List.mem_range] at hpmem
      obtain ⟨a, ha, b, hb, rfl⟩ := hpmem
      have hbh : b < h := by
        have hrow : V.getD 0 [] ∈ V := getD_mem' V 0 [] (by omega)
        rw [← (hwf.2 _ hrow).1]
        exact hb
      exact ⟨by rw [← hVlen]; exact ha, hbh⟩
    have hinit : ScanInv maxVal
        ⟨List.replicate V.length (List.replicate (V.getD 0 []).length
          (List.replicate (vlane V 0 0).length 0)), [0, 1], 2,
         List.replicate ((vlane V 0 0).length + 2) 0⟩ := by
      refine ⟨show EqInv [0, 1] from by decide, rfl, hmax, ?_, ?_⟩
      · intro x' y' k
        exact Or.inl (vlane_replicate_getD _ _ _ x' y' k)
      · intro k
        rcases getD_replicate_cases ((vlane V 0 0).length + 2) k (0 : Nat) 0 with hr | hr <;>
          exact Or.inl hr
    have hwfl0 : wf3 (List.replicate V.length (List.replicate (V.getD 0 []).length
        (List.replicate (vlane V 0 0).length (0 : Nat)))) w h (vlane V 0 0).length := by
      refine ⟨by rw [List.length_replicate]; exact hVlen, ?_⟩
      intro p hpmem
      have hw0 : V.length ≠ 0 := (List.mem_replicate.mp hpmem).1
      have hrow : V.getD 0 [] ∈ V := getD_mem' V 0 [] (by omega)
      rw [List.eq_of_mem_replicate hpmem]
      refine ⟨by rw [List.length_replicate]; exact (hwf.2 _ hrow).1, ?_⟩
      intro l hl
      rw [List.eq_of_mem_replicate hl]
      exact List.length_replicate _ _
    have hwfV : wf3 V w h (vlane V 0 0).length := by
      refine ⟨hVlen, ?_⟩
      intro p hpmem
      refine ⟨(hwf.2 _ hpmem).1, ?_⟩
      intro l hl
      have hrow0 : V.getD 0 [] ∈ V := getD_mem' V 0 [] (List.length_pos_of_mem hpmem)
      have hh0 : 0 < (V.getD 0 []).length := by
        rw [(hwf.2 _ hrow0).1, ← (hwf.2 _ hpmem).1]
        exact List.length_pos_of_mem hl
      have hlane00 : vlane V 0 0 ∈ V.getD 0 [] := getD_mem' _ 0 [] hh0
      rw [(hwf.2 _ hpmem).2 _ hl]
      exact ((hwf.2 _ hrow0).2 _ hlane00).symm
    have hpat : ∀ x' y', x' < w → y' < h →
        (x', y') ∉ ((List.range V.length).flatMap
          fun x => (List.range (V.getD 0 []).length).map fun y => (x, y)) →
        ∀ k, (vlane (List.replicate V.length (List.replicate (V.getD 0 []).length
          (List.replicate (vlane V 0 0).length (0 : Nat)))) x' y').getD k 0 = 0 ↔
          (vlane V x' y').getD k false = false := by
      intro x' y' hx' hy' hnotin k
      exfalso
      apply hnotin
      simp only [List.mem_flatMap, List.mem_map, List.mem_range]
      have hrow : V.getD 0 [] ∈ V := getD_mem' V 0 [] (by omega)
      exact ⟨x', by rw [hVlen]; exact hx', y', by rw [(hwf.2 _ hrow).1]; exact hy', rfl⟩
    obtain ⟨i1, i2, i3, i4⟩ := scanFold_spec maxVal (vlane V 0 0).length (kernel_data K)
      (use_previous_of K) ((V.length : Int), ((V.getD 0 []).length : Int)) V w h
      hwfV _ _ final hnd hrange hinit hwfl0 hpat hfold
    have hwfout : wf3 out w h d := by
      rw [← hout]
      refine ⟨by rw [List.length_map]; exact i2.1, ?_⟩
      intro p hpmem
      rw [List.mem_map] at hpmem
      obtain ⟨p0, hp0, rfl⟩ := hpmem
      refine ⟨by rw [List.length_map]; exact (i2.2 _ hp0).1, ?_⟩
      intro l hl
      rw [List.mem_map] at hl
      obtain ⟨l0, hl0, rfl⟩ := hl
      rw [List.length_map, (i2.2 _ hp0).2 _ hl0]
      have hw0 : 0 < w := by rw [← i2.1]; exact List.length_pos_of_mem hp0
      have hh0 : 0 < h := by rw [← (i2.2 _ hp0).1]; exact List.length_pos_of_mem hl0
      have hrow0 : V.getD 0 [] ∈ V := getD_mem' V 0 [] (by omega)
      have hlane00 : vlane V 0 0 ∈ V.getD 0 [] := getD_mem' _ 0 [] (by
        rw [(hwf.2 _ hrow0).1]; exact hh0)
      exact (hwf.2 _ hrow0).2 _ hlane00
    refine ⟨hwfout, ?_⟩
    intro x y z hx hy hz
    have hrow0 : V.getD 0 [] ∈ V := getD_mem' V 0 [] (by omega)
    have hh' : (V.getD 0 []).length = h := (hwf.2 _ hrow0).1
    have hlane00 : vlane V 0 0 ∈ V.getD 0 [] := getD_mem' _ 0 [] (by rw [hh']; omega)
    have hlen_d : (vlane V 0 0).length = d := (hwf.2 _ hrow0).2 _ hlane00
    have hrowf : final.labels.getD x [] ∈ final.labels :=
      getD_mem' _ x [] (by rw [i2.1]; exact hx)
    have hy2 : y < (final.labels.getD x []).length := by
      rw [(i2.2 _ hrowf).1]; exact hy
    have hlanef : (final.labels.getD x []).getD y [] ∈ final.labels.getD x [] :=
      getD_mem' _ y [] hy2
    have hz2 : z < ((final.labels.getD x []).getD y []).length := by
      rw [(i2.2 _ hrowf).2 _ hlanef, hlen_d]; exact hz
    constructor
    · rw [← hout]
      show (vlane (final.labels.map fun p => p.map fun l => l.map fun v =>
          (compact_equivalences final.eq final.nr).1.getD v 0) x y).getD z 0 = 0 ↔
        (vlane V x y).getD z false = false
      rw [vlane_map_getD final.labels _ x y z (by rw [i2.1]; exact hx) hy2 hz2]
      exact Iff.trans
        (compact_getD_zero_iff final.eq final.nr i1.1 i1.2.1 _ (i1.2.2.2.1 x y z))
        (i4 x y hx hy z)
    · rw [← hout, ← hnb]
      show (vlane (final.labels.map fun p => p.map fun l => l.map fun v =>
          (compact_equivalences final.eq final.nr).1.getD v 0) x y).getD z 0 ≤
        (compact_equivalences final.eq final.nr).2
      rw [vlane_map_getD final.labels _ x y z (by rw [i2.1]; exact hx) hy2 hz2]
      exact compact_getD_le final.eq final.nr i1.1 i1.2.1 _ (i1.2.2.2.1 x y z)
  next e hfold => exact LRes.noConfusion hok

/-- C3 counterexample to the frozen claim's tie-breaking direction: on the
volume `[[[true, false, true]]]` with the star kernel, labels 1 and 2 both
occur exactly once (a tie), yet `most_frequent_label` returns label 2 — the
larger id — because the running fold keeps the later pair under Rust's
lexicographic tuple `max`, which prefers the second argument on equal counts. -/
theorem C3_ties_counterexample :
    label [[[true, false, true]]]
      [[[false, false, false], [false, true, false], [false, false, false]],
       [[false, true, false], [true, true, true], [false, true, false]],
       [[false, false, false], [false, true, false], [false, false, false]]] 65535 =
      .ok ([[[1, 0, 2]]], 2) ∧
    label_histogram [[[1, 0, 2]]] 2 = [1, 1, 1] ∧
    most_frequent_label [[[1, 0, 2]]] 2 = some (2, 1) := by decide

/-- C3 (amended): on a successful `label` run, `most_frequent_label` returns
`None` exactly when the underlying volume has no foreground voxel; otherwise
it returns a non-background label of maximal histogram count together with
that count, and when several labels share the maximal count the LARGER label
id is returned (every label strictly above the winner has strictly smaller
count). -/
theorem C3_most_frequent_amended (V K : Vol3 Bool) (maxVal w h d : Nat)
    (hwf : wf3 V w h d) (hmax : 2 ≤ maxVal) (out : Vol3 Nat) (nb : Nat)
    (hok : label V K maxVal = .ok (out, nb)) :
    (most_frequent_label out nb = none ↔
      ∀ x y z, x < w → y < h → z < d → vget false V x y z = false) ∧
    (∀ lab cnt, most_frequent_label out nb = some (lab, cnt) →
      1 ≤ lab ∧ lab ≤ nb ∧ 0 < cnt ∧
      cnt = (label_histogram out nb).getD lab 0 ∧
      (∀ j, 1 ≤ j → j ≤ nb → (label_histogram out nb).getD j 0 ≤ cnt) ∧
      (∀ j, lab < j → j ≤ nb → (label_histogram out nb).getD j 0 < cnt)) := by
  obtain ⟨hwfout, hvox⟩ := label_ok_spec V K maxVal w h d hwf hmax out nb hok
  obtain ⟨hnone, hsome⟩ := most_frequent_label_spec out nb
  refine ⟨?_, hsome⟩
  rw [hnone]
  constructor
  · intro hall x y z hx hy hz
    obtain ⟨hiff, hle⟩ := hvox x y z hx hy hz
    rw [← hiff]
    by_contra hne
    have hv1 : 1 ≤ vget 0 out x y z := Nat.one_le_iff_ne_zero.mpr hne
    have hmemflat : vget 0 out x y z ∈ (out.flatMap fun p => p.flatMap id) :=
      (flat_voxels out w h d hwfout _).mpr ⟨x, y, z, hx, hy, hz, rfl⟩
    have hcount : 0 < (out.flatMap fun p => p.flatMap id).count (vget 0 out x y z) :=
      List.count_pos_iff.mpr hmemflat
    have hbucket := hall (vget 0 out x y z) hv1 hle
    rw [label_histogram_getD out nb _ (by omega)] at hbucket
    omega
  · intro hall j hj1 hj2
    rw [label_histogram_getD out nb j (by omega)]
    rw [List.count_eq_zero]
    intro hmem
    obtain ⟨x, y, z, hx, hy, hz, hval⟩ := (flat_voxels out w h d hwfout j).mp hmem
    obtain ⟨hiff, hle⟩ := hvox x y z hx hy hz
    have hzero : vget 0 out x y z = 0 := hiff.mpr (hall x y z hx hy hz)
    omega

theorem C3_most_frequent_amended_witness :
    wf3 [[[true, false, true]]] 1 1 3 ∧ 2 ≤ 65535 ∧
    label [[[true, false, true]]]
      [[[false, false, false], [false, true, false], [false, false, false]],
       [[false, true, false], [true, true, true], [false, true, false]],
       [[false, false, false], [false, true, false], [false, false, false]]] 65535 =
      .ok ([[[1, 0, 2]]], 2) ∧
    ((most_frequent_label [[[1, 0, 2]]] 2 = none ↔
      ∀ x y z, x < 1 → y < 1 → z < 3 →
        vget false [[[true, false, true]]] x y z = false) ∧
     (∀ lab cnt, most_frequent_label [[[1, 0, 2]]] 2 = some (lab, cnt) →
      1 ≤ lab ∧ lab ≤ 2 ∧ 0 < cnt ∧
      cnt = (label_histogram [[[1, 0, 2]]] 2).getD lab 0 ∧
      (∀ j, 1 ≤ j → j ≤ 2 → (label_histogram [[[1, 0, 2]]] 2).getD j 0 ≤ cnt) ∧
      (∀ j, lab < j → j ≤ 2 → (label_histogram [[[1, 0, 2]]] 2).getD j 0 < cnt))) :=
  ⟨by decide, by decide, by decide,
   C3_most_frequent_amended [[[true, false, true]]]
     [[[false, false, false], [false, true, false], [false, false, false]],
      [[false, true, false], [true, true, true], [false, true, false]],
      [[false, false, false], [false, true, false], [false, false, false]]] 65535 1 1 3
     (by decide) (by decide) [[[1, 0, 2]]] 2 (by decide)⟩
